import Mathlib

/-!
Verification of the CyberQueryAI response-recovery and retrieval-augmented
context-assembly core, as a shallow embedding of `cyber_query_ai/helpers.py`,
`rag.py`, `chatbot.py` and `server.py`.

Python strings are embedded as `List Char`; Python regex substitutions and
`str.replace` calls are embedded as recursive scanners over character lists
(fuelled where a single step consumes more than one character, with the fuel
instantiated to the input length so that every definition is executable by
kernel reduction).  Whitespace and word-character classes follow the ASCII
subsets of Python's `\s` and `\w`.
-/

/-- ASCII whitespace recognised by Python `str.strip` and the regex class
`\s` (space, tab, newline, carriage return, vertical tab, form feed). -/
def pyIsSpace (c : Char) : Bool :=
  c = ' ' || c = '\t' || c = '\n' || c = '\r' || c = '\x0b' || c = '\x0c'

/-- ASCII word characters, the regex class `\w` (alphanumerics and underscore). -/
def isWordChar (c : Char) : Bool :=
  c.isAlphanum || c = '_'

/-- The single-quote character (kept as a named constant). -/
def squote : Char := '\x27'

/-- Drop trailing characters satisfying `p` (helper for `pyStrip`). -/
def dropTrailing (p : Char → Bool) (l : List Char) : List Char :=
  (l.reverse.dropWhile p).reverse

/-- Embedding of Python `str.strip()`: remove leading and trailing whitespace. -/
def pyStrip (l : List Char) : List Char :=
  dropTrailing pyIsSpace (l.dropWhile pyIsSpace)

/-- Try to match `pat` as a literal prefix of `l`; on success return the rest. -/
def matchPre {α : Type} [DecidableEq α] : List α → List α → Option (List α)
  | [], l => some l
  | _ :: _, [] => none
  | p :: ps, c :: cs => if p = c then matchPre ps cs else none

/-- Whether `pat` occurs as a contiguous substring of `l`. -/
def occursSub {α : Type} [DecidableEq α] (pat : List α) : List α → Bool
  | [] => (matchPre pat ([] : List α)).isSome
  | c :: cs => (matchPre pat (c :: cs)).isSome || occursSub pat cs

theorem matchPre_length {α : Type} [DecidableEq α] {pat l r : List α}
    (h : matchPre pat l = some r) :
    pat.length + r.length = l.length := by
  induction pat generalizing l with
  | nil => simp [matchPre] at h; simp [h]
  | cons p ps ih =>
    cases l with
    | nil => simp [matchPre] at h
    | cons c cs =>
      simp only [matchPre] at h
      split at h
      · have := ih h; simp [List.length_cons]; omega
      · exact absurd h (by simp)

theorem matchPre_eq_append {α : Type} [DecidableEq α] {pat l r : List α}
    (h : matchPre pat l = some r) :
    l = pat ++ r := by
  induction pat generalizing l with
  | nil => simp [matchPre] at h; simp [h]
  | cons p ps ih =>
    cases l with
    | nil => simp [matchPre] at h
    | cons c cs =>
      simp only [matchPre] at h
      split at h
      · rename_i hpc; subst hpc; simpa using ih h
      · exact absurd h (by simp)

theorem matchPre_append {α : Type} [DecidableEq α] (pat r : List α) :
    matchPre pat (pat ++ r) = some r := by
  induction pat with
  | nil => rfl
  | cons p ps ih => simp [matchPre, ih]

/-- Fuelled generic model of Python `str.replace(pat, repl)` /
`re.sub(literal, repl)`: scan left to right, replace each non-overlapping
occurrence, continue after the match. -/
def pyReplaceGo (pat repl : List Char) : Nat → List Char → List Char
  | _, [] => []
  | 0, l => l
  | Nat.succ n, c :: cs =>
    match matchPre pat (c :: cs) with
    | some rest => repl ++ pyReplaceGo pat repl n rest
    | none => c :: pyReplaceGo pat repl n cs

/-- Python `str.replace` on character lists (the fuel is the input length). -/
def pyReplace (pat repl l : List Char) : List Char :=
  pyReplaceGo pat repl l.length l

theorem pyReplaceGo_fuel (pat repl : List Char) (hp : pat ≠ []) :
    ∀ n m l, l.length ≤ n → l.length ≤ m →
      pyReplaceGo pat repl n l = pyReplaceGo pat repl m l := by
  intro n
  induction n with
  | zero =>
    intro m l hn _
    have : l = [] := List.length_eq_zero.mp (Nat.le_zero.mp hn)
    subst this; cases m <;> rfl
  | succ n ih =>
    intro m l hn hm
    cases l with
    | nil => cases m <;> rfl
    | cons c cs =>
      cases m with
      | zero => simp at hm
      | succ m =>
        have hn' : cs.length ≤ n := by simpa using hn
        have hm' : cs.length ≤ m := by simpa using hm
        simp only [pyReplaceGo]
        cases hmp : matchPre pat (c :: cs) with
        | some rest =>
          have hlen : pat.length + rest.length = cs.length + 1 := by
            simpa using matchPre_length hmp
          have hplen : 1 ≤ pat.length := by
            cases pat with
            | nil => exact absurd rfl hp
            | cons _ _ => simp
          dsimp only
          rw [ih m rest (by omega) (by omega)]
        | none =>
          dsimp only
          rw [ih m cs hn' hm']

theorem pyReplace_nil (pat repl : List Char) : pyReplace pat repl [] = [] := rfl

theorem pyReplace_match {pat : List Char} (repl : List Char) {c : Char} {cs rest : List Char}
    (hp : pat ≠ []) (h : matchPre pat (c :: cs) = some rest) :
    pyReplace pat repl (c :: cs) = repl ++ pyReplace pat repl rest := by
  have hlen : pat.length + rest.length = cs.length + 1 := by
    simpa using matchPre_length h
  have hplen : 1 ≤ pat.length := by
    cases pat with
    | nil => exact absurd rfl hp
    | cons _ _ => simp
  unfold pyReplace
  simp only [List.length_cons, pyReplaceGo, h]
  congr 1
  exact pyReplaceGo_fuel pat repl hp (cs.length) (rest.length) rest (by omega) (by omega)

theorem pyReplace_nomatch {pat : List Char} (repl : List Char) {c : Char} {cs : List Char}
    (_hp : pat ≠ []) (h : matchPre pat (c :: cs) = none) :
    pyReplace pat repl (c :: cs) = c :: pyReplace pat repl cs := by
  unfold pyReplace
  simp only [List.length_cons, pyReplaceGo, h]

/-! ## Fence stripping (`helpers.py` lines 50-51)

`re.sub(r"```json\s*", "", text)` followed by `re.sub(r"```\s*$", "", text)`. -/

/-- The literal pattern of the first fence substitution. -/
def fenceJson : List Char := "```json".data

/-- Three backticks. -/
def fence3 : List Char := "```".data

/-- Fuelled scanner for `re.sub(r"```json\s*", "", ·)`: each occurrence of
the literal fence marker and the maximal whitespace run after it is removed. -/
def subAGo : Nat → List Char → List Char
  | _, [] => []
  | 0, l => l
  | Nat.succ n, c :: cs =>
    match matchPre fenceJson (c :: cs) with
    | some rest => subAGo n (rest.dropWhile pyIsSpace)
    | none => c :: subAGo n cs

/-- Embedding of `re.sub(r"```json\s*", "", text)`. -/
def subA (l : List Char) : List Char := subAGo l.length l

/-- Embedding of `re.sub(r"```\s*$", "", text)`: the match at the leftmost
position where three backticks are followed only by whitespace removes the
rest of the string (the greedy `\s*` reaches the end anchor). -/
def subB : List Char → List Char
  | [] => []
  | c :: cs =>
    match matchPre fence3 (c :: cs) with
    | some r => if r.all pyIsSpace then [] else c :: subB cs
    | none => c :: subB cs

theorem length_dropWhileLe (p : Char → Bool) (l : List Char) :
    (l.dropWhile p).length ≤ l.length := by
  induction l with
  | nil => simp [List.dropWhile]
  | cons c cs ih =>
    simp only [List.dropWhile]
    split
    · exact Nat.le_succ_of_le ih
    · simp

theorem subAGo_fuel :
    ∀ n m l, l.length ≤ n → l.length ≤ m → subAGo n l = subAGo m l := by
  intro n
  induction n with
  | zero =>
    intro m l hn _
    have : l = [] := List.length_eq_zero.mp (Nat.le_zero.mp hn)
    subst this; cases m <;> rfl
  | succ n ih =>
    intro m l hn hm
    cases l with
    | nil => cases m <;> rfl
    | cons c cs =>
      cases m with
      | zero => simp at hm
      | succ m =>
        have hn' : cs.length ≤ n := by simpa using hn
        have hm' : cs.length ≤ m := by simpa using hm
        simp only [subAGo]
        cases hmp : matchPre fenceJson (c :: cs) with
        | some rest =>
          have hlen : fenceJson.length + rest.length = cs.length + 1 := by
            simpa using matchPre_length hmp
          have hflen : fenceJson.length = 7 := by decide
          have hd : (rest.dropWhile pyIsSpace).length ≤ rest.length :=
            length_dropWhileLe _ _
          dsimp only
          rw [ih m (rest.dropWhile pyIsSpace) (by omega) (by omega)]
        | none =>
          dsimp only
          rw [ih m cs hn' hm']

theorem subA_nil : subA [] = [] := rfl

theorem subA_match {c : Char} {cs rest : List Char}
    (h : matchPre fenceJson (c :: cs) = some rest) :
    subA (c :: cs) = subA (rest.dropWhile pyIsSpace) := by
  have hlen : fenceJson.length + rest.length = cs.length + 1 := by
    simpa using matchPre_length h
  have hflen : fenceJson.length = 7 := by decide
  have hd : (rest.dropWhile pyIsSpace).length ≤ rest.length :=
    length_dropWhileLe _ _
  unfold subA
  simp only [List.length_cons, subAGo, h]
  exact subAGo_fuel cs.length (rest.dropWhile pyIsSpace).length _ (by omega) (by omega)

theorem subA_nomatch {c : Char} {cs : List Char}
    (h : matchPre fenceJson (c :: cs) = none) :
    subA (c :: cs) = c :: subA cs := by
  unfold subA
  simp only [List.length_cons, subAGo, h]

/-! ## The quote-rewrite chain (`helpers.py` lines 64-83) -/

/-- Literal pattern of `re.sub(r'client\\"s', "client's", ·)`. -/
def clientPat : List Char := "client\\\"s".data

/-- Replacement of the `client\"s` fix. -/
def clientRepl : List Char := "client\x27s".data

/-- Embedding of `re.sub(r'(\w)\\"(\w)', r"\1'\2", ·)`: an escaped double
quote between two word characters becomes an apostrophe. -/
def subR2 : List Char → List Char
  | a :: '\\' :: '"' :: b :: rest =>
    if isWordChar a && isWordChar b then a :: squote :: b :: subR2 rest
    else a :: subR2 ('\\' :: '"' :: b :: rest)
  | c :: cs => c :: subR2 cs
  | [] => []

/-- Embedding of `re.sub(r'\\"(\w)', r"'\1", ·)`: an escaped double quote
before a word character becomes an apostrophe. -/
def subR3 : List Char → List Char
  | '\\' :: '"' :: b :: rest =>
    if isWordChar b then squote :: b :: subR3 rest
    else '\\' :: subR3 ('"' :: b :: rest)
  | c :: cs => c :: subR3 cs
  | [] => []

/-- Sentinel token substituted for an escaped single quote (line 74). -/
def sent1 : List Char := "__ESCAPED_SINGLE_QUOTE__".data

/-- Sentinel token substituted for an escaped double quote (line 75). -/
def sent2 : List Char := "__ESCAPED_DOUBLE_QUOTE__".data

/-- The two-character escaped-single-quote sequence. -/
def escS : List Char := ['\\', squote]

/-- The two-character escaped-double-quote sequence. -/
def escD : List Char := ['\\', '"']

/-- Split at the next single quote: `some (before, after)` when one exists. -/
def splitQuote : List Char → Option (List Char × List Char)
  | [] => none
  | c :: cs =>
    if c = squote then some ([], cs)
    else (splitQuote cs).map (fun p => (c :: p.1, p.2))

/-- Fuelled scanner for `re.sub(r"'([^']*)'", r'"\1"', ·)`: a pair of single
quotes with no single quote between them becomes a pair of double quotes. -/
def quoteSubGo : Nat → List Char → List Char
  | _, [] => []
  | 0, l => l
  | Nat.succ n, c :: cs =>
    if c = squote then
      match splitQuote cs with
      | some p => '"' :: (p.1 ++ '"' :: quoteSubGo n p.2)
      | none => c :: cs
    else c :: quoteSubGo n cs

/-- The single-to-double quote-delimiter conversion (line 79). -/
def quoteSub (l : List Char) : List Char := quoteSubGo l.length l

theorem splitQuote_length {cs a b : List Char} (h : splitQuote cs = some (a, b)) :
    a.length + b.length + 1 = cs.length := by
  induction cs generalizing a with
  | nil => simp [splitQuote] at h
  | cons c cs ih =>
    simp only [splitQuote] at h
    split at h
    · simp at h
      obtain ⟨ha, hb⟩ := h
      subst ha; subst hb; simp
    · cases hs : splitQuote cs with
      | none => rw [hs] at h; simp at h
      | some p =>
        rw [hs] at h
        simp at h
        obtain ⟨ha, hb⟩ := h
        have := ih (a := p.1) (by rw [hs, ← hb])
        subst ha
        simp [List.length_cons]
        omega

theorem splitQuote_eq_append {cs a b : List Char} (h : splitQuote cs = some (a, b)) :
    cs = a ++ squote :: b ∧ ∀ x ∈ a, x ≠ squote := by
  induction cs generalizing a with
  | nil => simp [splitQuote] at h
  | cons c cs ih =>
    simp only [splitQuote] at h
    split at h
    · rename_i hc
      simp at h
      obtain ⟨ha, hb⟩ := h
      subst ha; subst hb; subst hc
      simp
    · rename_i hc
      cases hs : splitQuote cs with
      | none => rw [hs] at h; simp at h
      | some p =>
        rw [hs] at h
        simp at h
        obtain ⟨ha, hb⟩ := h
        obtain ⟨h1, h2⟩ := ih (a := p.1) (by rw [hs, ← hb])
        subst ha
        refine ⟨by simp [h1, hb], ?_⟩
        intro x hx
        rcases List.mem_cons.mp hx with hx1 | hx2
        · subst hx1; exact hc
        · exact h2 x hx2

theorem quoteSubGo_fuel :
    ∀ n m l, l.length ≤ n → l.length ≤ m → quoteSubGo n l = quoteSubGo m l := by
  intro n
  induction n with
  | zero =>
    intro m l hn _
    have : l = [] := List.length_eq_zero.mp (Nat.le_zero.mp hn)
    subst this; cases m <;> rfl
  | succ n ih =>
    intro m l hn hm
    cases l with
    | nil => cases m <;> rfl
    | cons c cs =>
      cases m with
      | zero => simp at hm
      | succ m =>
        have hn' : cs.length ≤ n := by simpa using hn
        have hm' : cs.length ≤ m := by simpa using hm
        simp only [quoteSubGo]
        split
        · cases hs : splitQuote cs with
          | some p =>
            have hlen : p.1.length + p.2.length + 1 = cs.length :=
              splitQuote_length (by rw [hs])
            dsimp only
            rw [ih m p.2 (by omega) (by omega)]
          | none => dsimp only
        · rw [ih m cs hn' hm']

theorem quoteSub_nil : quoteSub [] = [] := rfl

theorem quoteSub_pair {cs a b : List Char}
    (h : splitQuote cs = some (a, b)) :
    quoteSub (squote :: cs) = '"' :: (a ++ '"' :: quoteSub b) := by
  have hlen : a.length + b.length + 1 = cs.length := splitQuote_length h
  have hfix : quoteSubGo cs.length b = quoteSubGo b.length b :=
    quoteSubGo_fuel cs.length b.length b (by omega) (by omega)
  unfold quoteSub
  simp only [List.length_cons, quoteSubGo, h]
  simp [hfix]

theorem quoteSub_nopair {cs : List Char}
    (h : splitQuote cs = none) :
    quoteSub (squote :: cs) = squote :: cs := by
  unfold quoteSub
  simp only [List.length_cons, quoteSubGo, h]
  simp

theorem quoteSub_cons {c : Char} {cs : List Char} (h : ¬ c = squote) :
    quoteSub (c :: cs) = c :: quoteSub cs := by
  unfold quoteSub
  simp only [List.length_cons, quoteSubGo, if_neg h]

/-! ## Trailing-comma removal and the structural repair (lines 86-95) -/

/-- Fuelled scanner for `re.sub(r",(\s*[}\]])", r"\1", ·)`: a comma directly
before (whitespace and) a closing brace or bracket is dropped. -/
def subCommaGo : Nat → List Char → List Char
  | _, [] => []
  | 0, l => l
  | Nat.succ n, c :: cs =>
    if c = ',' then
      match cs.dropWhile pyIsSpace with
      | b :: rest2 =>
        if b = '\x7d' || b = ']' then cs.takeWhile pyIsSpace ++ b :: subCommaGo n rest2
        else ',' :: subCommaGo n cs
      | [] => ',' :: subCommaGo n cs
    else c :: subCommaGo n cs

/-- Trailing-comma cleanup (line 86). -/
def subComma (l : List Char) : List Char := subCommaGo l.length l

/-- Case-insensitive literal matcher capturing the original characters. -/
def matchCaseChars : List Char → List Char → Option (List Char × List Char)
  | [], l => some ([], l)
  | _ :: _, [] => none
  | p :: ps, c :: cs =>
    if c.toLower = p then (matchCaseChars ps cs).map (fun q => (c :: q.1, q.2)) else none

/-- Lower-case stem of the `(explanation?)` group. -/
def explanBase : List Char := "explanatio".data

/-- Match `(explanation?)"` (case-insensitive, greedy optional `n`),
returning the captured key text and the rest after the closing quote. -/
def matchExplanKey (l : List Char) : Option (List Char × List Char) :=
  match matchCaseChars explanBase l with
  | none => none
  | some (g, r) =>
    match r with
    | c1 :: rest1 =>
      if c1.toLower = 'n' then
        match rest1 with
        | '"' :: r2 => some (g ++ [c1], r2)
        | _ => none
      else if c1 = '"' then some (g, rest1)
      else none
    | [] => none

/-- Matcher for the structural-repair pattern
`(\["[^"]*"\s*),\s*"(explanation?)":\s*"([^"]*)"(\s*\])` with replacement
`\1], "\2": "\3"` (the fourth group is consumed and dropped); returns the
replacement text and the rest of the input after the match. -/
def matchStep5 (l : List Char) : Option (List Char × List Char) :=
  match l with
  | '[' :: '"' :: cs =>
    let g1a := cs.takeWhile (fun c => c ≠ '"')
    match cs.dropWhile (fun c => c ≠ '"') with
    | '"' :: cs2 =>
      let ws1 := cs2.takeWhile pyIsSpace
      match cs2.dropWhile pyIsSpace with
      | ',' :: cs3 =>
        match cs3.dropWhile pyIsSpace with
        | '"' :: cs5 =>
          match matchExplanKey cs5 with
          | some (g2, cs6) =>
            match cs6 with
            | ':' :: cs7 =>
              match cs7.dropWhile pyIsSpace with
              | '"' :: cs8 =>
                let g3 := cs8.takeWhile (fun c => c ≠ '"')
                match cs8.dropWhile (fun c => c ≠ '"') with
                | '"' :: cs9 =>
                  match cs9.dropWhile pyIsSpace with
                  | ']' :: cs10 =>
                    some ('[' :: '"' :: (g1a ++ '"' :: (ws1 ++ ']' :: ',' :: ' ' :: '"' ::
                      (g2 ++ '"' :: ':' :: ' ' :: '"' :: (g3 ++ ['"'])))), cs10)
                  | _ => none
                | _ => none
              | _ => none
            | _ => none
          | none => none
        | _ => none
      | _ => none
    | _ => none
  | _ => none

/-- Fuelled driver for the structural-repair substitution (lines 90-95). -/
def step5Go : Nat → List Char → List Char
  | _, [] => []
  | 0, l => l
  | Nat.succ n, c :: cs =>
    match matchStep5 (c :: cs) with
    | some p => p.1 ++ step5Go n p.2
    | none => c :: step5Go n cs

/-- The structural-repair substitution. -/
def step5Sub (l : List Char) : List Char := step5Go l.length l

/-! ## Model of Python `json.loads` acceptance (strict JSON)

`clean_json_response` branches on whether `json.loads` succeeds.  The parser
below embeds the strict JSON grammar accepted by Python's `json` module
(objects, arrays, strings with the standard escapes and no raw control
characters, numbers, `true`/`false`/`null`, with JSON whitespace); string and
number payloads are kept as the raw matched characters. -/

/-- JSON whitespace (the set skipped by Python's `json` scanner). -/
def jsonWs (c : Char) : Bool := c = ' ' || c = '\t' || c = '\n' || c = '\r'

/-- Skip JSON whitespace. -/
def skipWs (l : List Char) : List Char := l.dropWhile jsonWs

/-- Hexadecimal digit. -/
def hexDigit (c : Char) : Bool :=
  c.isDigit || ('a' ≤ c && c ≤ 'f') || ('A' ≤ c && c ≤ 'F')

/-- Single-character string escapes. -/
def simpleEsc (c : Char) : Bool :=
  c = '"' || c = '\\' || c = '/' || c = 'b' || c = 'f' || c = 'n' || c = 'r' || c = 't'

/-- Parse the rest of a JSON string after the opening quote; returns the raw
content characters and the rest after the closing quote. -/
def parseStrRest : List Char → Option (List Char × List Char)
  | [] => none
  | '"' :: cs => some ([], cs)
  | '\\' :: 'u' :: a :: b :: c :: d :: cs =>
    if hexDigit a && hexDigit b && hexDigit c && hexDigit d then
      (parseStrRest cs).map (fun p => ('\\' :: 'u' :: a :: b :: c :: d :: p.1, p.2))
    else none
  | '\\' :: e :: cs =>
    if simpleEsc e then (parseStrRest cs).map (fun p => ('\\' :: e :: p.1, p.2))
    else none
  | c :: cs =>
    if c.toNat < 32 then none
    else (parseStrRest cs).map (fun p => (c :: p.1, p.2))

/-- Parse an optional exponent part after the integer/fraction part. -/
def parseExpPart : List Char → Option (List Char)
  | [] => some []
  | e :: cs =>
    if e = 'e' || e = 'E' then
      match (match cs with
             | s :: t => if s = '+' || s = '-' then t else s :: t
             | [] => []) with
      | d :: t2 => if d.isDigit then some ((d :: t2).dropWhile Char.isDigit) else none
      | [] => none
    else some (e :: cs)

/-- Parse an optional fraction part then the exponent part. -/
def parseAfterInt : List Char → Option (List Char)
  | '.' :: cs =>
    match cs with
    | d :: _ => if d.isDigit then parseExpPart (cs.dropWhile Char.isDigit) else none
    | [] => none
  | l => parseExpPart l

/-- Parse a JSON number at the head of the input. -/
def parseNum (l : List Char) : Option (List Char) :=
  let l1 := match l with
            | '-' :: cs => cs
            | _ => l
  match l1 with
  | '0' :: cs => parseAfterInt cs
  | c :: cs => if c.isDigit then parseAfterInt (cs.dropWhile Char.isDigit) else none
  | [] => none

/-- JSON values (string/number payloads kept as raw characters). -/
inductive Json where
  | jnull : Json
  | jtrue : Json
  | jfalse : Json
  | jnum (raw : List Char) : Json
  | jstr (raw : List Char) : Json
  | jarr (items : List Json) : Json
  | jobj (fields : List (List Char × Json)) : Json

mutual

/-- Parse a JSON value at the head of the input (fuelled). -/
def parseVal : Nat → List Char → Option (Json × List Char)
  | 0, _ => none
  | Nat.succ n, l =>
    match l with
    | '\x7b' :: cs => parseObjBody n (skipWs cs)
    | '[' :: cs => parseArrBody n (skipWs cs)
    | '"' :: cs => (parseStrRest cs).map (fun p => (Json.jstr p.1, p.2))
    | 't' :: 'r' :: 'u' :: 'e' :: cs => some (Json.jtrue, cs)
    | 'f' :: 'a' :: 'l' :: 's' :: 'e' :: cs => some (Json.jfalse, cs)
    | 'n' :: 'u' :: 'l' :: 'l' :: cs => some (Json.jnull, cs)
    | _ => (parseNum l).map (fun rest => (Json.jnum (l.take (l.length - rest.length)), rest))

/-- Parse an object body after the opening brace (whitespace skipped). -/
def parseObjBody : Nat → List Char → Option (Json × List Char)
  | 0, _ => none
  | Nat.succ n, l =>
    match l with
    | '\x7d' :: cs => some (Json.jobj [], cs)
    | _ => (parseMembers n l).map (fun p => (Json.jobj p.1, p.2))

/-- Parse one or more `"key": value` members separated by commas. -/
def parseMembers : Nat → List Char → Option (List (List Char × Json) × List Char)
  | 0, _ => none
  | Nat.succ n, l =>
    match l with
    | '"' :: cs =>
      match parseStrRest cs with
      | none => none
      | some (key, r1) =>
        match skipWs r1 with
        | ':' :: r2 =>
          match parseVal n (skipWs r2) with
          | none => none
          | some (v, r3) =>
            match skipWs r3 with
            | ',' :: r4 => (parseMembers n (skipWs r4)).map (fun p => ((key, v) :: p.1, p.2))
            | '\x7d' :: r4 => some ([(key, v)], r4)
            | _ => none
        | _ => none
    | _ => none

/-- Parse an array body after the opening bracket (whitespace skipped). -/
def parseArrBody : Nat → List Char → Option (Json × List Char)
  | 0, _ => none
  | Nat.succ n, l =>
    match l with
    | ']' :: cs => some (Json.jarr [], cs)
    | _ => (parseItems n l).map (fun p => (Json.jarr p.1, p.2))

/-- Parse one or more array items separated by commas. -/
def parseItems : Nat → List Char → Option (List Json × List Char)
  | 0, _ => none
  | Nat.succ n, l =>
    match parseVal n l with
    | none => none
    | some (v, r1) =>
      match skipWs r1 with
      | ',' :: r2 => (parseItems n (skipWs r2)).map (fun p => (v :: p.1, p.2))
      | ']' :: r2 => some ([v], r2)
      | _ => none

end

/-- Parse a complete JSON document from a character list. -/
def parseJsonL (l : List Char) : Option Json :=
  match parseVal (3 * l.length + 3) (skipWs l) with
  | some (v, rest) => if skipWs rest = [] then some v else none
  | none => none

/-- Whether Python `json.loads` accepts the text. -/
def isValidJsonL (l : List Char) : Bool := (parseJsonL l).isSome

/-! ## `clean_json_response` (`helpers.py` lines 47-98) -/

/-- Replace escaped single quotes by the first sentinel (line 74). -/
def protS (l : List Char) : List Char := pyReplace escS sent1 l

/-- Replace escaped double quotes by the second sentinel (line 75). -/
def protD (l : List Char) : List Char := pyReplace escD sent2 l

/-- Restore the first sentinel to an escaped single quote (line 82). -/
def restS (l : List Char) : List Char := pyReplace sent1 escS l

/-- Restore the second sentinel to an escaped double quote (line 83). -/
def restD (l : List Char) : List Char := pyReplace sent2 escD l

/-- The sentinel-bracketed single-to-double quote conversion
(`helpers.py` lines 72-83): protect escaped quotes, convert single-quote
delimiters, restore the escaped quotes. -/
def sentinelConvert (l : List Char) : List Char :=
  restD (restS (quoteSub (protD (protS l))))

/-- Embedding of `clean_json_response` (`helpers.py` lines 47-98). -/
def cleanJsonResponse (s : String) : String :=
  let t := subB (subA s.data)
  if isValidJsonL (pyStrip t) then (pyStrip t).asString
  else
    let u1 := pyReplace "```python".data "```\\npython".data t
    let u2 := pyReplace "```".data [] u1
    let u3 := pyReplace clientPat clientRepl u2
    let u4 := subR3 (subR2 u3)
    let u5 := sentinelConvert u4
    let u6 := subComma u5
    let u7 := step5Sub u6
    (pyStrip u7).asString

/-! ## Basic facts about stripping and the fence substitutions -/

theorem dropWhile_suffix_exists (p : Char → Bool) (l : List Char) :
    ∃ t, l = t ++ l.dropWhile p := by
  induction l with
  | nil => exact ⟨[], rfl⟩
  | cons c cs ih =>
    simp only [List.dropWhile]
    split
    · obtain ⟨t, ht⟩ := ih
      exact ⟨c :: t, by simpa using ht⟩
    · exact ⟨[], rfl⟩

theorem dropWhile_head_false {p : Char → Bool} {l cs : List Char} {c : Char}
    (h : l.dropWhile p = c :: cs) : p c = false := by
  induction l with
  | nil => simp [List.dropWhile] at h
  | cons a as ih =>
    simp only [List.dropWhile] at h
    split at h
    · exact ih h
    · rename_i hp
      obtain ⟨rfl, _⟩ := List.cons.injEq a as c cs ▸ h
      simpa using hp

theorem dropWhile_dropWhile (p : Char → Bool) (l : List Char) :
    (l.dropWhile p).dropWhile p = l.dropWhile p := by
  cases h : l.dropWhile p with
  | nil => simp [List.dropWhile]
  | cons c cs =>
    have := dropWhile_head_false h
    simp [List.dropWhile, this]

theorem dropWhile_eq_self_of_strip {p : Char → Bool} {l : List Char}
    (h : dropTrailing p (l.dropWhile p) = l) : l.dropWhile p = l := by
  have hsub : (l.dropWhile p).length ≤ l.length := length_dropWhileLe p l
  have hsub2 : (dropTrailing p (l.dropWhile p)).length ≤ (l.dropWhile p).length := by
    unfold dropTrailing
    simpa using length_dropWhileLe p (l.dropWhile p).reverse
  have hlen : (l.dropWhile p).length = l.length := by
    rw [h] at hsub2; omega
  obtain ⟨t, ht⟩ := dropWhile_suffix_exists p l
  have : t.length = 0 := by
    have := congrArg List.length ht
    simp at this; omega
  have ht0 : t = [] := List.length_eq_zero.mp this
  rw [ht0] at ht
  exact ht.symm

theorem dropTrailing_append_ws {p : Char → Bool} {c : Char} (l : List Char)
    (hc : p c = true) : dropTrailing p (l ++ [c]) = dropTrailing p l := by
  unfold dropTrailing
  simp [List.reverse_append, List.dropWhile, hc]

theorem pyStrip_idem (l : List Char) : pyStrip (pyStrip l) = pyStrip l := by
  unfold pyStrip
  set A := l.dropWhile pyIsSpace with hA
  have h1 : (dropTrailing pyIsSpace A).dropWhile pyIsSpace = dropTrailing pyIsSpace A := by
    cases h : dropTrailing pyIsSpace A with
    | nil => simp [List.dropWhile]
    | cons c cs =>
      have hc : pyIsSpace c = false := by
        have : (A.reverse.dropWhile pyIsSpace).reverse = c :: cs := h
        have h2 : A.reverse.dropWhile pyIsSpace = (c :: cs).reverse := by
          rw [← this, List.reverse_reverse]
        have hhead : A.reverse.dropWhile pyIsSpace = cs.reverse ++ [c] := by
          simpa using h2
        -- the head of the dropWhile result fails p unless the list is empty
        cases hdw : A.reverse.dropWhile pyIsSpace with
        | nil => rw [hdw] at hhead; simp at hhead
        | cons d ds =>
          have hd := dropWhile_head_false hdw
          rw [hdw] at hhead
          -- c :: cs = reverse (d :: ds); head of dropTrailing is obtained differently,
          -- instead use: dropTrailing result is a prefix of A
          have hpre : ∃ t2, A = (c :: cs) ++ t2 := by
            obtain ⟨t, ht⟩ := dropWhile_suffix_exists pyIsSpace A.reverse
            refine ⟨t.reverse, ?_⟩
            have := congrArg List.reverse ht
            simp at this
            rw [this, h2]
            simp
          obtain ⟨t2, ht2⟩ := hpre
          have : A.dropWhile pyIsSpace = A := by
            rw [hA]; exact dropWhile_dropWhile pyIsSpace l
          rw [ht2] at this
          cases h3 : pyIsSpace c with
          | false => rfl
          | true =>
            exfalso
            simp [List.dropWhile, h3] at this
            have hlen2 : ((cs ++ t2).dropWhile pyIsSpace).length ≤ cs.length + t2.length := by
              simpa using length_dropWhileLe pyIsSpace (cs ++ t2)
            have := congrArg List.length this
            simp at this
            omega
      simp [List.dropWhile, hc]
  rw [h1]
  unfold dropTrailing
  rw [List.reverse_reverse, dropWhile_dropWhile]

theorem asString_data (l : List Char) : (List.asString l).data = l := rfl

theorem data_asString (s : String) : s.data.asString = s := rfl

/-- CLAIM C10.  For every input string, `clean_json_response` returns a
string with no leading and no trailing whitespace: both the early return on
successfully parsed input and the full rewrite path end by stripping
surrounding whitespace, so the result is a fixed point of `pyStrip`. -/
theorem C10_clean_json_response_stripped (s : String) :
    pyStrip (cleanJsonResponse s).data = (cleanJsonResponse s).data := by
  unfold cleanJsonResponse
  dsimp only
  split
  · rw [asString_data, pyStrip_idem]
  · rw [asString_data, pyStrip_idem]

/-! ## Claim C2: behaviour of the normalizer on already-valid input -/

theorem matchPre_split {α : Type} [DecidableEq α] {p q l r : List α}
    (h : matchPre (p ++ q) l = some r) : matchPre p l = some (q ++ r) := by
  have := matchPre_eq_append h
  rw [List.append_assoc] at this
  rw [this]
  exact matchPre_append p (q ++ r)

theorem fenceJson_split : fenceJson = fence3 ++ "json".data := by decide

theorem subA_id_of_no_fence {l : List Char} (h : occursSub fence3 l = false) :
    subA l = l := by
  induction l with
  | nil => rfl
  | cons c cs ih =>
    simp only [occursSub, Bool.or_eq_false_iff] at h
    obtain ⟨h1, h2⟩ := h
    cases hm : matchPre fenceJson (c :: cs) with
    | some rest =>
      exfalso
      have := matchPre_split (p := fence3) (q := "json".data)
        (by rw [← fenceJson_split]; exact hm)
      rw [this] at h1
      simp at h1
    | none =>
      rw [subA_nomatch hm, ih h2]

theorem subB_id_of_no_fence {l : List Char} (h : occursSub fence3 l = false) :
    subB l = l := by
  induction l with
  | nil => rfl
  | cons c cs ih =>
    simp only [occursSub, Bool.or_eq_false_iff] at h
    obtain ⟨h1, h2⟩ := h
    cases hm : matchPre fence3 (c :: cs) with
    | some rest =>
      exfalso; rw [hm] at h1; simp at h1
    | none =>
      simp only [subB, hm]
      rw [ih h2]

/-- CLAIM C2 (counterexample).  The input `{"a": "```json"}` is valid JSON
and already free of surrounding whitespace, yet `clean_json_response` does
not return it unchanged: the fence-marker substitution runs before the parse
check and deletes the backtick sequence inside the string value. -/
theorem C2_valid_json_rewritten_counterexample :
    isValidJsonL "\x7b\"a\": \"```json\"\x7d".data = true ∧
    pyStrip "\x7b\"a\": \"```json\"\x7d".data = "\x7b\"a\": \"```json\"\x7d".data ∧
    cleanJsonResponse "\x7b\"a\": \"```json\"\x7d" = "\x7b\"a\": \"\"\x7d" ∧
    cleanJsonResponse "\x7b\"a\": \"```json\"\x7d" ≠ "\x7b\"a\": \"```json\"\x7d" := by
  refine ⟨by decide, by decide, by decide, by decide⟩

/-- CLAIM C2 (amended).  For every input string that is valid JSON after
stripping surrounding whitespace and that contains no triple-backtick
sequence (so that the two fence substitutions, which run before the parse
check, leave it unchanged), `clean_json_response` returns it unchanged
except for removal of surrounding whitespace, performing no further
rewriting after the successful parse check. -/
theorem C2_valid_json_stripped_only (s : String)
    (hf : occursSub fence3 s.data = false)
    (hv : isValidJsonL (pyStrip s.data) = true) :
    cleanJsonResponse s = (pyStrip s.data).asString := by
  unfold cleanJsonResponse
  dsimp only
  rw [subA_id_of_no_fence hf, subB_id_of_no_fence hf]
  simp [hv]

/-- Witness for the amended claim C2 at a concrete input. -/
theorem C2_valid_json_stripped_only_witness :
    occursSub fence3 " \x7b\"a\": 1\x7d\n".data = false ∧
    isValidJsonL (pyStrip " \x7b\"a\": 1\x7d\n".data) = true ∧
    cleanJsonResponse " \x7b\"a\": 1\x7d\n" = (pyStrip " \x7b\"a\": 1\x7d\n".data).asString :=
  ⟨by decide, by decide, C2_valid_json_stripped_only _ (by decide) (by decide)⟩

/-! ## Claim C7: a single fenced block around valid JSON -/

/-- The backtick character. -/
def btickChar : Char := Char.ofNat 96

theorem matchPre_none_head {α : Type} [DecidableEq α] {p c : α} {ps cs : List α} (h : ¬ p = c) :
    matchPre (p :: ps) (c :: cs) = none := by
  simp [matchPre, if_neg h]

theorem fenceJson_cons : fenceJson = btickChar :: "``json".data := by decide

theorem fence3_cons : fence3 = btickChar :: "``".data := by decide

theorem str_data_append (a b : String) : (a ++ b).data = a.data ++ b.data := by
  cases a; cases b; rfl

theorem subA_keep {u : List Char} (h : ∀ c ∈ u, ¬ c = btickChar) :
    subA (u ++ "\n```".data) = u ++ "\n```".data := by
  induction u with
  | nil => decide
  | cons c cs ih =>
    have hc : ¬ btickChar = c := fun he => (h c (by simp)) he.symm
    have hm : matchPre fenceJson (c :: (cs ++ "\n```".data)) = none := by
      rw [fenceJson_cons]; exact matchPre_none_head hc
    rw [List.cons_append, subA_nomatch hm, ih (fun d hd => h d (by simp [hd]))]

theorem subB_keep {u : List Char} (h : ∀ c ∈ u, ¬ c = btickChar) :
    subB (u ++ "\n```".data) = u ++ ['\n'] := by
  induction u with
  | nil => decide
  | cons c cs ih =>
    have hc : ¬ btickChar = c := fun he => (h c (by simp)) he.symm
    have hm : matchPre fence3 (c :: (cs ++ "\n```".data)) = none := by
      rw [fence3_cons]; exact matchPre_none_head hc
    rw [List.cons_append, subB, hm]
    simp only
    rw [ih (fun d hd => h d (by simp [hd])), List.cons_append]

/-- CLAIM C7 (amended).  For every response whose entire content is a
fenced block with the `json` language tag (```json fence, newline,
stripped valid JSON containing no backtick, newline, closing fence), the
normalizer strips the fence and the subsequent parse succeeds, yielding
the same payload as parsing the inner text directly.  The claim over
arbitrary language tags is refuted by `C7_python_fence_counterexample`:
the fence stripper at `helpers.py` line 50 recognizes only the `json`
tag, and a `python`-tagged fence is instead mangled by the step-1
replacement at line 64. -/
theorem C7_fenced_block_roundtrip (t : String)
    (hb : ∀ c ∈ t.data, ¬ c = btickChar)
    (hs : pyStrip t.data = t.data)
    (hv : isValidJsonL t.data = true) :
    cleanJsonResponse ("```json\n" ++ t ++ "\n```") = t ∧
    parseJsonL (cleanJsonResponse ("```json\n" ++ t ++ "\n```")).data = parseJsonL t.data := by
  have hne : t.data ≠ [] := by
    intro he
    rw [he] at hv
    exact absurd hv (by decide)
  have hdw : t.data.dropWhile pyIsSpace = t.data := dropWhile_eq_self_of_strip hs
  have hdt : dropTrailing pyIsSpace t.data = t.data := by
    have := hs
    unfold pyStrip at this
    rwa [hdw] at this
  obtain ⟨c0, rest, hcr⟩ : ∃ c0 rest, t.data = c0 :: rest := by
    cases hd : t.data with
    | nil => exact absurd hd hne
    | cons a as => exact ⟨a, as, rfl⟩
  have hc0 : pyIsSpace c0 = false := dropWhile_head_false (hcr ▸ hdw)
  have hdata : ("```json\n" ++ t ++ "\n```").data =
      fenceJson ++ ('\n' :: (t.data ++ "\n```".data)) := by
    rw [str_data_append, str_data_append]
    have hfd : "```json\n".data = fenceJson ++ ['\n'] := by decide
    rw [hfd, List.append_assoc]
    simp
  have h1 : subA (("```json\n" ++ t ++ "\n```").data) = t.data ++ "\n```".data := by
    rw [hdata, fenceJson_cons, List.cons_append]
    have hm : matchPre fenceJson
        (btickChar :: ("``json".data ++ ('\n' :: (t.data ++ "\n```".data)))) =
        some ('\n' :: (t.data ++ "\n```".data)) := by
      rw [← List.cons_append, ← fenceJson_cons]
      exact matchPre_append _ _
    rw [subA_match hm]
    have hdw2 : ('\n' :: (t.data ++ "\n```".data)).dropWhile pyIsSpace =
        t.data ++ "\n```".data := by
      simp only [List.dropWhile, show pyIsSpace '\n' = true from by decide]
      rw [hcr, List.cons_append]
      simp only [List.dropWhile, hc0]
    rw [hdw2]
    exact subA_keep hb
  have h2 : subB (t.data ++ "\n```".data) = t.data ++ ['\n'] := subB_keep hb
  have h3 : pyStrip (t.data ++ ['\n']) = t.data := by
    unfold pyStrip
    have hdw2 : (t.data ++ ['\n']).dropWhile pyIsSpace = t.data ++ ['\n'] := by
      rw [hcr, List.cons_append]
      simp only [List.dropWhile, hc0]
    rw [hdw2, dropTrailing_append_ws _ (by decide), hdt]
  have hmain : cleanJsonResponse ("```json\n" ++ t ++ "\n```") = t := by
    unfold cleanJsonResponse
    dsimp only
    rw [h1, h2, h3, hv]
    simp [data_asString]
  exact ⟨hmain, by rw [hmain]⟩

/-- Witness for claim C7 at a concrete fenced response. -/
theorem C7_fenced_block_roundtrip_witness :
    cleanJsonResponse ("```json\n" ++ "\x7b\"a\": 1\x7d" ++ "\n```") = "\x7b\"a\": 1\x7d" ∧
    parseJsonL (cleanJsonResponse ("```json\n" ++ "\x7b\"a\": 1\x7d" ++ "\n```")).data =
      parseJsonL "\x7b\"a\": 1\x7d".data :=
  C7_fenced_block_roundtrip "\x7b\"a\": 1\x7d" (by decide) (by decide) (by decide)

/-! ## Claim C3: the sentinel-bracketed quote conversion

The conversion (`helpers.py` lines 72-83) is characterised against a
token-level reference: the input is decomposed into atomic tokens (escaped
single quote, escaped double quote, plain character), the quote-delimiter
conversion is performed at the token level (so escape tokens are opaque),
and the tokens are rendered back.  -/

/-- Tokens of the conversion: a plain character, an escaped single quote
(`\'`), or an escaped double quote (`\"`). -/
inductive QTok where
  | raw (c : Char) : QTok
  | e1 : QTok
  | e2 : QTok
deriving DecidableEq

/-- Tokenise a string, pairing each backslash with a following quote
character exactly as the left-to-right scans of lines 74-75 do. -/
def tok : List Char → List QTok
  | [] => []
  | [c] => [QTok.raw c]
  | c :: d :: ds =>
    if c = '\\' then
      if d = squote then QTok.e1 :: tok ds
      else if d = '"' then QTok.e2 :: tok ds
      else QTok.raw c :: tok (d :: ds)
    else QTok.raw c :: tok (d :: ds)

/-- Render tokens in protected (sentinel) form. -/
def renderS : List QTok → List Char
  | [] => []
  | QTok.raw c :: ts => c :: renderS ts
  | QTok.e1 :: ts => sent1 ++ renderS ts
  | QTok.e2 :: ts => sent2 ++ renderS ts

/-- Render tokens with the first sentinel restored and the second still
protected (the state between lines 82 and 83). -/
def renderM : List QTok → List Char
  | [] => []
  | QTok.raw c :: ts => c :: renderM ts
  | QTok.e1 :: ts => escS ++ renderM ts
  | QTok.e2 :: ts => sent2 ++ renderM ts

/-- Render tokens in plain (fully restored) form. -/
def renderF : List QTok → List Char
  | [] => []
  | QTok.raw c :: ts => c :: renderF ts
  | QTok.e1 :: ts => escS ++ renderF ts
  | QTok.e2 :: ts => escD ++ renderF ts

theorem pyReplace_chunk {p : Char} {pat2 repl X : List Char} {u : List Char}
    (hu : ∀ c ∈ u, ¬ c = p) :
    pyReplace (p :: pat2) repl (u ++ X) = u ++ pyReplace (p :: pat2) repl X := by
  induction u with
  | nil => rfl
  | cons c u ih =>
    have hc : ¬ p = c := fun he => (hu c (by simp)) he.symm
    rw [List.cons_append, pyReplace_nomatch _ (by simp) (matchPre_none_head hc),
      ih (fun d hd => hu d (by simp [hd]))]
    rfl

theorem matchPre_escS_pair (ds : List Char) :
    matchPre escS ('\\' :: squote :: ds) = some ds := by
  simp [escS, matchPre]

theorem matchPre_escD_pair (ds : List Char) :
    matchPre escD ('\\' :: '"' :: ds) = some ds := by
  simp [escD, matchPre]

theorem matchPre_escS_none_second {d : Char} {ds : List Char} (h : ¬ d = squote) :
    matchPre escS ('\\' :: d :: ds) = none := by
  simp [escS, matchPre]
  intro h2
  exact absurd h2.symm h

theorem matchPre_escD_none_second {d : Char} {ds : List Char} (h : ¬ d = '"') :
    matchPre escD ('\\' :: d :: ds) = none := by
  simp [escD, matchPre]
  intro h2
  exact absurd h2.symm h

theorem matchPre_escS_none_head {c : Char} {cs : List Char} (h : ¬ c = '\\') :
    matchPre escS (c :: cs) = none :=
  matchPre_none_head (fun he => h he.symm)

theorem matchPre_escD_none_head {c : Char} {cs : List Char} (h : ¬ c = '\\') :
    matchPre escD (c :: cs) = none :=
  matchPre_none_head (fun he => h he.symm)

theorem matchPre_escS_single : matchPre escS ['\\'] = none := by
  simp [escS, matchPre]

theorem matchPre_escD_single : matchPre escD ['\\'] = none := by
  simp [escD, matchPre]

/-- The two protection passes produce exactly the sentinel rendering of
the tokenisation. -/
theorem protDS_renderS : ∀ n l, l.length ≤ n → protD (protS l) = renderS (tok l) := by
  intro n
  induction n with
  | zero =>
    intro l hn
    have : l = [] := List.length_eq_zero.mp (Nat.le_zero.mp hn)
    subst this; decide
  | succ n ih =>
    intro l hn
    cases l with
    | nil => decide
    | cons c cs =>
      by_cases hc : c = '\\'
      · subst hc
        cases cs with
        | nil => decide
        | cons d ds =>
          have hds : ds.length ≤ n := by
            simp [List.length_cons] at hn; omega
          have hdds : (d :: ds).length ≤ n := by
            simp [List.length_cons] at hn ⊢; omega
          by_cases hd : d = squote
          · subst hd
            have h1 : protS ('\\' :: squote :: ds) = sent1 ++ protS ds := by
              unfold protS
              rw [pyReplace_match _ (by simp [escS]) (matchPre_escS_pair ds)]
            have h2 : tok ('\\' :: squote :: ds) = QTok.e1 :: tok ds := by
              simp +decide [tok]
            rw [h1, h2]
            show protD (sent1 ++ protS ds) = renderS (QTok.e1 :: tok ds)
            unfold protD
            rw [show escD = '\\' :: ['"'] from rfl]
            rw [pyReplace_chunk (by decide)]
            have hrec := ih ds hds
            unfold protD at hrec
            rw [show ('\\' :: ['"'] : List Char) = escD from rfl, hrec]
            simp [renderS]
          · by_cases hd2 : d = '"'
            · subst hd2
              have h1 : protS ('\\' :: '"' :: ds) = '\\' :: '"' :: protS ds := by
                unfold protS
                rw [pyReplace_nomatch _ (by simp [escS]) (matchPre_escS_none_second hd)]
                rw [pyReplace_nomatch _ (by simp [escS]) (matchPre_escS_none_head (by decide))]
              have h2 : tok ('\\' :: '"' :: ds) = QTok.e2 :: tok ds := by
                simp +decide [tok]
              rw [h1, h2]
              unfold protD
              rw [pyReplace_match _ (by simp [escD]) (matchPre_escD_pair (protS ds))]
              have hrec := ih ds hds
              unfold protD at hrec
              rw [hrec]
              simp [renderS]
            · have h1 : protS ('\\' :: d :: ds) = '\\' :: protS (d :: ds) := by
                unfold protS
                rw [pyReplace_nomatch _ (by simp [escS]) (matchPre_escS_none_second hd)]
              have h2 : tok ('\\' :: d :: ds) = QTok.raw '\\' :: tok (d :: ds) := by
                simp [tok, hd, hd2]
              rw [h1, h2]
              have hrec := ih (d :: ds) hdds
              have hhead : matchPre escD ('\\' :: protS (d :: ds)) = none := by
                cases hm : matchPre escS (d :: ds) with
                | some r =>
                  have h3 : protS (d :: ds) = sent1 ++ protS r := by
                    unfold protS
                    rw [pyReplace_match _ (by simp [escS]) hm]
                  rw [h3]
                  rw [show sent1 ++ protS r = '_' :: ("_ESCAPED_SINGLE_QUOTE__".data ++ protS r)
                    from by simp [sent1]]
                  exact matchPre_escD_none_second (by decide)
                | none =>
                  have h3 : protS (d :: ds) = d :: protS ds := by
                    unfold protS
                    rw [pyReplace_nomatch _ (by simp [escS]) hm]
                  rw [h3]
                  exact matchPre_escD_none_second hd2
              unfold protD
              rw [pyReplace_nomatch _ (by simp [escD]) hhead]
              unfold protD at hrec
              rw [hrec]
              simp [renderS]
      · have hcs : cs.length ≤ n := by
          simp [List.length_cons] at hn; omega
        have h1 : protS (c :: cs) = c :: protS cs := by
          unfold protS
          rw [pyReplace_nomatch _ (by simp [escS]) (matchPre_escS_none_head hc)]
        have h2 : tok (c :: cs) = QTok.raw c :: tok cs := by
          cases cs with
          | nil => simp [tok]
          | cons d ds => simp [tok, hc]
        rw [h1, h2]
        unfold protD
        rw [pyReplace_nomatch _ (by simp [escD]) (matchPre_escD_none_head hc)]
        have hrec := ih cs hcs
        unfold protD at hrec
        rw [hrec]
        simp [renderS]

/-! ## The conversion at token level -/

/-- Split a token list at the next raw single quote. -/
def splitQuoteT : List QTok → Option (List QTok × List QTok)
  | [] => none
  | t :: ts =>
    if t = QTok.raw squote then some ([], ts)
    else (splitQuoteT ts).map (fun p => (t :: p.1, p.2))

/-- Fuelled token-level quote-delimiter conversion: a pair of raw single
quotes (with none between) becomes a pair of raw double quotes; escape
tokens are opaque. -/
def qtokGo : Nat → List QTok → List QTok
  | _, [] => []
  | 0, l => l
  | Nat.succ n, t :: ts =>
    if t = QTok.raw squote then
      match splitQuoteT ts with
      | some p => QTok.raw '"' :: (p.1 ++ QTok.raw '"' :: qtokGo n p.2)
      | none => t :: ts
    else t :: qtokGo n ts

/-- Token-level quote-delimiter conversion. -/
def qtok (ts : List QTok) : List QTok := qtokGo ts.length ts

theorem splitQuoteT_length {ts a b : List QTok} (h : splitQuoteT ts = some (a, b)) :
    a.length + b.length + 1 = ts.length := by
  induction ts generalizing a with
  | nil => simp [splitQuoteT] at h
  | cons t ts ih =>
    simp only [splitQuoteT] at h
    split at h
    · simp at h
      obtain ⟨ha, hb⟩ := h
      subst ha; subst hb; simp
    · cases hs : splitQuoteT ts with
      | none => rw [hs] at h; simp at h
      | some p =>
        rw [hs] at h
        simp at h
        obtain ⟨ha, hb⟩ := h
        have := ih (a := p.1) (by rw [hs, ← hb])
        subst ha
        simp [List.length_cons]
        omega

theorem splitQuoteT_eq_append {ts a b : List QTok} (h : splitQuoteT ts = some (a, b)) :
    ts = a ++ QTok.raw squote :: b ∧ ∀ t ∈ a, ¬ t = QTok.raw squote := by
  induction ts generalizing a with
  | nil => simp [splitQuoteT] at h
  | cons t ts ih =>
    simp only [splitQuoteT] at h
    split at h
    · rename_i ht
      simp at h
      obtain ⟨ha, hb⟩ := h
      subst ha; subst hb; subst ht
      simp
    · rename_i ht
      cases hs : splitQuoteT ts with
      | none => rw [hs] at h; simp at h
      | some p =>
        rw [hs] at h
        simp at h
        obtain ⟨ha, hb⟩ := h
        obtain ⟨h1, h2⟩ := ih (a := p.1) (by rw [hs, ← hb])
        subst ha
        refine ⟨by simp [h1, hb], ?_⟩
        intro x hx
        rcases List.mem_cons.mp hx with hx1 | hx2
        · subst hx1; exact ht
        · exact h2 x hx2

theorem splitQuoteT_none {ts : List QTok} (h : splitQuoteT ts = none) :
    ∀ t ∈ ts, ¬ t = QTok.raw squote := by
  induction ts with
  | nil => simp
  | cons t ts ih =>
    simp only [splitQuoteT] at h
    split at h
    · simp at h
    · rename_i ht
      intro x hx
      rcases List.mem_cons.mp hx with hx1 | hx2
      · subst hx1; exact ht
      · cases hs : splitQuoteT ts with
        | none => exact ih hs x hx2
        | some p => rw [hs] at h; simp at h

theorem qtokGo_fuel :
    ∀ n m l, l.length ≤ n → l.length ≤ m → qtokGo n l = qtokGo m l := by
  intro n
  induction n with
  | zero =>
    intro m l hn _
    have : l = [] := List.length_eq_zero.mp (Nat.le_zero.mp hn)
    subst this; cases m <;> rfl
  | succ n ih =>
    intro m l hn hm
    cases l with
    | nil => cases m <;> rfl
    | cons t ts =>
      cases m with
      | zero => simp at hm
      | succ m =>
        have hn' : ts.length ≤ n := by simpa using hn
        have hm' : ts.length ≤ m := by simpa using hm
        simp only [qtokGo]
        split
        · cases hs : splitQuoteT ts with
          | some p =>
            have hlen : p.1.length + p.2.length + 1 = ts.length :=
              splitQuoteT_length (by rw [hs])
            dsimp only
            rw [ih m p.2 (by omega) (by omega)]
          | none => dsimp only
        · rw [ih m ts hn' hm']

theorem qtok_pair {ts a b : List QTok}
    (h : splitQuoteT ts = some (a, b)) :
    qtok (QTok.raw squote :: ts) = QTok.raw '"' :: (a ++ QTok.raw '"' :: qtok b) := by
  have hlen : a.length + b.length + 1 = ts.length := splitQuoteT_length h
  have hfix : qtokGo ts.length b = qtokGo b.length b :=
    qtokGo_fuel ts.length b.length b (by omega) (by omega)
  unfold qtok
  simp only [List.length_cons, qtokGo, h]
  simp [hfix]

theorem qtok_nopair {ts : List QTok}
    (h : splitQuoteT ts = none) :
    qtok (QTok.raw squote :: ts) = QTok.raw squote :: ts := by
  unfold qtok
  simp only [List.length_cons, qtokGo, h]
  simp

theorem qtok_cons {t : QTok} {ts : List QTok} (h : ¬ t = QTok.raw squote) :
    qtok (t :: ts) = t :: qtok ts := by
  unfold qtok
  simp only [List.length_cons, qtokGo, if_neg h]

theorem renderS_append (x y : List QTok) :
    renderS (x ++ y) = renderS x ++ renderS y := by
  induction x with
  | nil => rfl
  | cons t ts ih =>
    cases t <;> simp [renderS, ih]

theorem renderS_nosq {ts : List QTok} (h : ∀ t ∈ ts, ¬ t = QTok.raw squote) :
    ∀ c ∈ renderS ts, ¬ c = squote := by
  induction ts with
  | nil => simp [renderS]
  | cons t ts ih =>
    have hts : ∀ t ∈ ts, ¬ t = QTok.raw squote := fun x hx => h x (by simp [hx])
    cases t with
    | raw c =>
      have hcs : ¬ c = squote := by
        intro he; subst he
        exact h (QTok.raw squote) (by simp) rfl
      intro x hx
      simp [renderS] at hx
      rcases hx with hx1 | hx2
      · subst hx1; exact hcs
      · exact ih hts x hx2
    | e1 =>
      intro x hx
      simp [renderS] at hx
      rcases hx with hx1 | hx2
      · intro he; subst he
        revert hx1; decide
      · exact ih hts x hx2
    | e2 =>
      intro x hx
      simp [renderS] at hx
      rcases hx with hx1 | hx2
      · intro he; subst he
        revert hx1; decide
      · exact ih hts x hx2

theorem splitQuote_nosq {l : List Char} (h : ∀ c ∈ l, ¬ c = squote) :
    splitQuote l = none := by
  induction l with
  | nil => rfl
  | cons c cs ih =>
    simp only [splitQuote, if_neg (h c (by simp))]
    rw [ih (fun d hd => h d (by simp [hd]))]
    rfl

theorem splitQuote_append_nosq {u X : List Char} (h : ∀ c ∈ u, ¬ c = squote) :
    splitQuote (u ++ X) = (splitQuote X).map (fun p => (u ++ p.1, p.2)) := by
  induction u with
  | nil => simp
  | cons c cs ih =>
    rw [List.cons_append]
    simp only [splitQuote, if_neg (h c (by simp))]
    rw [ih (fun d hd => h d (by simp [hd]))]
    cases splitQuote X <;> simp

theorem quoteSub_append_nosq {u X : List Char} (h : ∀ c ∈ u, ¬ c = squote) :
    quoteSub (u ++ X) = u ++ quoteSub X := by
  induction u with
  | nil => rfl
  | cons c cs ih =>
    rw [List.cons_append, quoteSub_cons (h c (by simp)), ih (fun d hd => h d (by simp [hd]))]
    simp

theorem splitQuote_renderS_some {ts a b : List QTok}
    (h : splitQuoteT ts = some (a, b)) :
    splitQuote (renderS ts) = some (renderS a, renderS b) := by
  obtain ⟨h1, h2⟩ := splitQuoteT_eq_append h
  rw [h1, renderS_append]
  rw [show renderS (QTok.raw squote :: b) = squote :: renderS b from rfl]
  rw [splitQuote_append_nosq (renderS_nosq h2)]
  simp [splitQuote]

theorem splitQuote_renderS_none {ts : List QTok}
    (h : splitQuoteT ts = none) :
    splitQuote (renderS ts) = none :=
  splitQuote_nosq (renderS_nosq (splitQuoteT_none h))

/-- The character-level conversion agrees with the token-level conversion on
rendered token lists (escape tokens pass through the conversion opaquely). -/
theorem quoteSub_renderS : ∀ n ts, ts.length ≤ n →
    quoteSub (renderS ts) = renderS (qtok ts) := by
  intro n
  induction n with
  | zero =>
    intro ts hn
    have : ts = [] := List.length_eq_zero.mp (Nat.le_zero.mp hn)
    subst this; rfl
  | succ n ih =>
    intro ts hn
    cases ts with
    | nil => rfl
    | cons t ts2 =>
      have hts2 : ts2.length ≤ n := by simpa using hn
      by_cases ht : t = QTok.raw squote
      · subst ht
        cases hs : splitQuoteT ts2 with
        | some p =>
          obtain ⟨a, b⟩ := p
          have hlen : a.length + b.length + 1 = ts2.length := splitQuoteT_length hs
          have hb : b.length ≤ n := by omega
          rw [show renderS (QTok.raw squote :: ts2) = squote :: renderS ts2 from rfl]
          rw [quoteSub_pair (splitQuote_renderS_some hs)]
          rw [qtok_pair hs]
          rw [show renderS (QTok.raw '"' :: (a ++ QTok.raw '"' :: qtok b)) =
            '"' :: renderS (a ++ QTok.raw '"' :: qtok b) from rfl]
          rw [renderS_append]
          rw [show renderS (QTok.raw '"' :: qtok b) = '"' :: renderS (qtok b) from rfl]
          rw [ih b hb]
        | none =>
          rw [show renderS (QTok.raw squote :: ts2) = squote :: renderS ts2 from rfl]
          rw [quoteSub_nopair (splitQuote_renderS_none hs)]
          rw [qtok_nopair hs]
          rfl
      · rw [qtok_cons ht]
        cases t with
        | raw c =>
          have hc : ¬ c = squote := by
            intro he; subst he; exact ht rfl
          rw [show renderS (QTok.raw c :: ts2) = c :: renderS ts2 from rfl]
          rw [quoteSub_cons hc, ih ts2 hts2]
          rfl
        | e1 =>
          rw [show renderS (QTok.e1 :: ts2) = sent1 ++ renderS ts2 from rfl]
          rw [quoteSub_append_nosq (by decide), ih ts2 hts2]
          rfl
        | e2 =>
          rw [show renderS (QTok.e2 :: ts2) = sent2 ++ renderS ts2 from rfl]
          rw [quoteSub_append_nosq (by decide), ih ts2 hts2]
          rfl

/-! ## The restore passes

The two restore substitutions undo the protection exactly, provided the
input never contained the distinctive sentinel cores as plain text. -/

/-- Core of the first sentinel (the part that cannot arise by accident
from renderings of escape tokens). -/
def core1 : List Char := "ESCAPED_SINGLE_QUOTE".data

/-- Core of the second sentinel. -/
def core2 : List Char := "ESCAPED_DOUBLE_QUOTE".data

/-- The first sentinel core as raw tokens. -/
def rcore1 : List QTok := core1.map QTok.raw

/-- The second sentinel core as raw tokens. -/
def rcore2 : List QTok := core2.map QTok.raw

/-- First 22 characters of the first sentinel. -/
def sentCore1 : List Char := "__ESCAPED_SINGLE_QUOTE".data

/-- First 22 characters of the second sentinel. -/
def sentCore2 : List Char := "__ESCAPED_DOUBLE_QUOTE".data

theorem matchPre_append_none {α : Type} [DecidableEq α] {pat u : List α} (X : List α)
    (hlen : pat.length ≤ u.length) (h : matchPre pat u = none) :
    matchPre pat (u ++ X) = none := by
  induction pat generalizing u with
  | nil => simp [matchPre] at h
  | cons p ps ih =>
    cases u with
    | nil => simp at hlen
    | cons c cs =>
      simp only [matchPre] at h ⊢
      split at h
      · rename_i hpc
        rw [if_pos hpc]
        exact ih (by simpa using hlen) h
      · rename_i hpc
        rw [if_neg hpc]

theorem matchPre_mismatch_within {α : Type} [DecidableEq α] {pat u : List α} (X : List α)
    (h : matchPre (pat.take u.length) u = none) :
    matchPre pat (u ++ X) = none := by
  induction u generalizing pat with
  | nil => simp [matchPre] at h
  | cons c cs ih =>
    cases pat with
    | nil => simp [matchPre] at h
    | cons p ps =>
      simp only [List.length_cons, List.take_succ_cons, matchPre] at h ⊢
      split at h
      · rename_i hpc
        rw [if_pos hpc]
        exact ih h
      · rename_i hpc
        rw [if_neg hpc]

theorem occursSub_cons_mono {α : Type} [DecidableEq α] {pat cs : List α} (c : α)
    (h : occursSub pat cs = true) : occursSub pat (c :: cs) = true := by
  simp [occursSub, h]

theorem occursSub_of_matchPre {α : Type} [DecidableEq α] {pat l r : List α}
    (h : matchPre pat l = some r) : occursSub pat l = true := by
  cases l with
  | nil => simp [occursSub, h]
  | cons c cs => simp [occursSub, h]

theorem msent1_sent1 : ∀ j, 1 ≤ j → j ≤ 21 → matchPre (sent1.drop j) sent1 = none := by
  intro j h1 h2
  interval_cases j <;> decide

theorem msent1_sent2 : ∀ j, 1 ≤ j → j ≤ 21 → matchPre (sent1.drop j) sent2 = none := by
  intro j h1 h2
  interval_cases j <;> decide

theorem msent2_sent2 : ∀ j, 1 ≤ j → j ≤ 21 → matchPre (sent2.drop j) sent2 = none := by
  intro j h1 h2
  interval_cases j <;> decide

theorem msent2_escS : ∀ j, 1 ≤ j → j ≤ 21 →
    matchPre ((sent2.drop j).take escS.length) escS = none := by
  intro j h1 h2
  interval_cases j <;> decide

theorem sentCore1_step {j : Nat} (h2 : j ≤ 21) {p : Char} {ps : List Char}
    (hd : sent1.drop j = p :: ps) (hps : ps = sent1.drop (j + 1)) :
    (sentCore1.drop j) = p :: sentCore1.drop (j + 1) := by
  have hc : sentCore1 = sent1.take 22 := by decide
  rw [hc, List.drop_take, List.drop_take, hd, ← hps]
  have e1 : 22 - j = (21 - j) + 1 := by omega
  have e2 : 22 - (j + 1) = 21 - j := by omega
  rw [e1, e2]
  rfl

theorem sentCore2_step {j : Nat} (h2 : j ≤ 21) {p : Char} {ps : List Char}
    (hd : sent2.drop j = p :: ps) (hps : ps = sent2.drop (j + 1)) :
    (sentCore2.drop j) = p :: sentCore2.drop (j + 1) := by
  have hc : sentCore2 = sent2.take 22 := by decide
  rw [hc, List.drop_take, List.drop_take, hd, ← hps]
  have e1 : 22 - j = (21 - j) + 1 := by omega
  have e2 : 22 - (j + 1) = 21 - j := by omega
  rw [e1, e2]
  rfl

/-- If a proper tail of the first sentinel matches at the start of a
rendered token list, the corresponding characters are raw tokens spelling
the sentinel core. -/
theorem restoreAux1 : ∀ n us, us.length ≤ n → ∀ j r, 1 ≤ j → j ≤ 21 →
    matchPre (sent1.drop j) (renderS us) = some r →
    ∃ r2, matchPre ((sentCore1.drop j).map QTok.raw) us = some r2 := by
  intro n
  induction n with
  | zero =>
    intro us hn j r h1 h2 hm
    have : us = [] := List.length_eq_zero.mp (Nat.le_zero.mp hn)
    subst this
    exfalso
    cases hd : sent1.drop j with
    | nil =>
      have := congrArg List.length hd
      simp [List.length_drop, show sent1.length = 24 from by decide] at this
      omega
    | cons p ps =>
      rw [show renderS [] = [] from rfl, hd] at hm
      simp [matchPre] at hm
  | succ n ih =>
    intro us hn j r h1 h2 hm
    cases us with
    | nil =>
      exfalso
      cases hd : sent1.drop j with
      | nil =>
        have := congrArg List.length hd
        simp [List.length_drop, show sent1.length = 24 from by decide] at this
        omega
      | cons p ps =>
        rw [show renderS [] = [] from rfl, hd] at hm
        simp [matchPre] at hm
    | cons t us2 =>
      have hus2 : us2.length ≤ n := by simpa using hn
      have hdlen : (sent1.drop j).length ≤ sent1.length := by
        simp [List.length_drop]
      cases t with
      | e1 =>
        exfalso
        rw [show renderS (QTok.e1 :: us2) = sent1 ++ renderS us2 from rfl] at hm
        rw [matchPre_append_none (renderS us2) hdlen (msent1_sent1 j h1 h2)] at hm
        exact absurd hm (by simp)
      | e2 =>
        exfalso
        rw [show renderS (QTok.e2 :: us2) = sent2 ++ renderS us2 from rfl] at hm
        have hdlen2 : (sent1.drop j).length ≤ sent2.length := by
          rw [List.length_drop]
          have e1 : sent1.length = 24 := by decide
          have e2 : sent2.length = 24 := by decide
          omega
        rw [matchPre_append_none (renderS us2) hdlen2 (msent1_sent2 j h1 h2)] at hm
        exact absurd hm (by simp)
      | raw c =>
        rw [show renderS (QTok.raw c :: us2) = c :: renderS us2 from rfl] at hm
        cases hd : sent1.drop j with
        | nil =>
          exfalso
          have := congrArg List.length hd
          simp [List.length_drop, show sent1.length = 24 from by decide] at this
          omega
        | cons p ps =>
          rw [hd] at hm
          simp only [matchPre] at hm
          split at hm
          · rename_i hpc
            have hps : ps = sent1.drop (j + 1) := by
              have h3 := List.drop_drop 1 j sent1
              rw [hd] at h3
              simpa using h3
            by_cases hj : j = 21
            · subst hj
              have hp : p = 'E' := by
                have h4 : sent1.drop 21 = 'E' :: '_' :: ['_'] := by decide
                have hd2 := hd
                rw [h4] at hd2
                injection hd2 with h5 h6
                exact h5.symm
              refine ⟨us2, ?_⟩
              rw [show sentCore1.drop 21 = ['E'] from by decide]
              simp only [List.map_cons, List.map_nil, matchPre]
              rw [if_pos (by rw [← hp, hpc])]
            · obtain ⟨r2, hr2⟩ := ih us2 hus2 (j + 1) r (by omega) (by omega)
                (by rw [← hps]; exact hm)
              refine ⟨r2, ?_⟩
              rw [sentCore1_step h2 hd hps, List.map_cons]
              simp only [matchPre]
              rw [if_pos (by rw [hpc])]
              exact hr2
          · exact absurd hm (by simp)

/-- Same statement for the second sentinel over the half-restored form. -/
theorem restoreAux2 : ∀ n us, us.length ≤ n → ∀ j r, 1 ≤ j → j ≤ 21 →
    matchPre (sent2.drop j) (renderM us) = some r →
    ∃ r2, matchPre ((sentCore2.drop j).map QTok.raw) us = some r2 := by
  intro n
  induction n with
  | zero =>
    intro us hn j r h1 h2 hm
    have : us = [] := List.length_eq_zero.mp (Nat.le_zero.mp hn)
    subst this
    exfalso
    cases hd : sent2.drop j with
    | nil =>
      have := congrArg List.length hd
      simp [List.length_drop, show sent2.length = 24 from by decide] at this
      omega
    | cons p ps =>
      rw [show renderM [] = [] from rfl, hd] at hm
      simp [matchPre] at hm
  | succ n ih =>
    intro us hn j r h1 h2 hm
    cases us with
    | nil =>
      exfalso
      cases hd : sent2.drop j with
      | nil =>
        have := congrArg List.length hd
        simp [List.length_drop, show sent2.length = 24 from by decide] at this
        omega
      | cons p ps =>
        rw [show renderM [] = [] from rfl, hd] at hm
        simp [matchPre] at hm
    | cons t us2 =>
      have hus2 : us2.length ≤ n := by simpa using hn
      cases t with
      | e1 =>
        exfalso
        rw [show renderM (QTok.e1 :: us2) = escS ++ renderM us2 from rfl] at hm
        rw [matchPre_mismatch_within (renderM us2) (msent2_escS j h1 h2)] at hm
        exact absurd hm (by simp)
      | e2 =>
        exfalso
        rw [show renderM (QTok.e2 :: us2) = sent2 ++ renderM us2 from rfl] at hm
        have hdlen2 : (sent2.drop j).length ≤ sent2.length := by
          simp [List.length_drop]
        rw [matchPre_append_none (renderM us2) hdlen2 (msent2_sent2 j h1 h2)] at hm
        exact absurd hm (by simp)
      | raw c =>
        rw [show renderM (QTok.raw c :: us2) = c :: renderM us2 from rfl] at hm
        cases hd : sent2.drop j with
        | nil =>
          exfalso
          have := congrArg List.length hd
          simp [List.length_drop, show sent2.length = 24 from by decide] at this
          omega
        | cons p ps =>
          rw [hd] at hm
          simp only [matchPre] at hm
          split at hm
          · rename_i hpc
            have hps : ps = sent2.drop (j + 1) := by
              have h3 := List.drop_drop 1 j sent2
              rw [hd] at h3
              simpa using h3
            by_cases hj : j = 21
            · subst hj
              have hp : p = 'E' := by
                have h4 : sent2.drop 21 = 'E' :: '_' :: ['_'] := by decide
                have hd2 := hd
                rw [h4] at hd2
                injection hd2 with h5 h6
                exact h5.symm
              refine ⟨us2, ?_⟩
              rw [show sentCore2.drop 21 = ['E'] from by decide]
              simp only [List.map_cons, List.map_nil, matchPre]
              rw [if_pos (by rw [← hp, hpc])]
            · obtain ⟨r2, hr2⟩ := ih us2 hus2 (j + 1) r (by omega) (by omega)
                (by rw [← hps]; exact hm)
              refine ⟨r2, ?_⟩
              rw [sentCore2_step h2 hd hps, List.map_cons]
              simp only [matchPre]
              rw [if_pos (by rw [hpc])]
              exact hr2
          · exact absurd hm (by simp)

theorem matchPre_none_of_long {α : Type} [DecidableEq α] {pat l : List α}
    (h : l.length < pat.length) : matchPre pat l = none := by
  cases hm : matchPre pat l with
  | none => rfl
  | some r =>
    have := matchPre_length hm
    omega

theorem pyReplace_match_ne {pat repl l rest : List Char}
    (hp : pat ≠ []) (hl : l ≠ []) (h : matchPre pat l = some rest) :
    pyReplace pat repl l = repl ++ pyReplace pat repl rest := by
  cases l with
  | nil => exact absurd rfl hl
  | cons c cs => exact pyReplace_match repl hp h

theorem pyReplace_nomatch_ne {pat repl : List Char} {c : Char} {cs : List Char}
    (hp : pat ≠ []) (h : matchPre pat (c :: cs) = none) :
    pyReplace pat repl (c :: cs) = c :: pyReplace pat repl cs :=
  pyReplace_nomatch repl hp h

theorem pyReplace_skip_positions {pat repl X : List Char} {u : List Char}
    (hp : pat ≠ [])
    (h : ∀ i, i < u.length → matchPre pat (u.drop i ++ X) = none) :
    pyReplace pat repl (u ++ X) = u ++ pyReplace pat repl X := by
  induction u with
  | nil => simp
  | cons c cs ih =>
    have h0 := h 0 (by simp)
    rw [List.drop_zero, List.cons_append] at h0
    rw [List.cons_append, pyReplace_nomatch repl hp h0]
    rw [ih (fun i hi => by
      have := h (i + 1) (by simp [List.length_cons]; omega)
      simpa using this)]
    rfl

/-- A match of the tail of the first sentinel right after its leading
underscore forces the sentinel core to occur as raw tokens. -/
theorem aux1_j1 {us2 : List QTok} {r : List Char}
    (hm : matchPre (sent1.drop 1) (renderS us2) = some r) :
    occursSub rcore1 us2 = true := by
  obtain ⟨r2, hr2⟩ := restoreAux1 us2.length us2 le_rfl 1 r (by omega) (by omega) hm
  rw [show sentCore1.drop 1 = '_' :: core1 from by decide, List.map_cons] at hr2
  have heq := matchPre_eq_append hr2
  rw [heq, List.cons_append]
  exact occursSub_cons_mono _ (occursSub_of_matchPre (matchPre_append rcore1 r2))

theorem aux1_j2 {us2 : List QTok} {r : List Char}
    (hm : matchPre (sent1.drop 2) (renderS us2) = some r) :
    occursSub rcore1 us2 = true := by
  obtain ⟨r2, hr2⟩ := restoreAux1 us2.length us2 le_rfl 2 r (by omega) (by omega) hm
  rw [show sentCore1.drop 2 = core1 from by decide] at hr2
  exact occursSub_of_matchPre hr2

theorem aux2_j1 {us2 : List QTok} {r : List Char}
    (hm : matchPre (sent2.drop 1) (renderM us2) = some r) :
    occursSub rcore2 us2 = true := by
  obtain ⟨r2, hr2⟩ := restoreAux2 us2.length us2 le_rfl 1 r (by omega) (by omega) hm
  rw [show sentCore2.drop 1 = '_' :: core2 from by decide, List.map_cons] at hr2
  have heq := matchPre_eq_append hr2
  rw [heq, List.cons_append]
  exact occursSub_cons_mono _ (occursSub_of_matchPre (matchPre_append rcore2 r2))

/-- Stepping the first restore pass over a rendered second sentinel. -/
theorem restS_skip_sent2 {us2 : List QTok}
    (htame : occursSub rcore1 us2 = false) :
    restS (sent2 ++ renderS us2) = sent2 ++ restS (renderS us2) := by
  unfold restS
  refine pyReplace_skip_positions (by simp [sent1]) ?_
  intro i hi
  have hi24 : i < 24 := by
    simpa [show sent2.length = 24 from by decide] using hi
  by_cases h22 : i ≤ 21
  · refine matchPre_mismatch_within _ ?_
    interval_cases i <;> decide
  · have : i = 22 ∨ i = 23 := by omega
    rcases this with h | h
    · subst h
      rw [show sent2.drop 22 = '_' :: ['_'] from by decide]
      rw [show ('_' :: ['_'] : List Char) ++ renderS us2 = '_' :: '_' :: renderS us2 from rfl]
      rw [show sent1 = '_' :: '_' :: sent1.drop 2 from by decide]
      simp only [matchPre, if_pos]
      cases hm : matchPre (sent1.drop 2) (renderS us2) with
      | none => rfl
      | some r =>
        exfalso
        rw [aux1_j2 hm] at htame
        exact absurd htame (by simp)
    · subst h
      rw [show sent2.drop 23 = ['_'] from by decide]
      rw [show (['_'] : List Char) ++ renderS us2 = '_' :: renderS us2 from rfl]
      rw [show sent1 = '_' :: sent1.drop 1 from by decide]
      simp only [matchPre, if_pos]
      cases hm : matchPre (sent1.drop 1) (renderS us2) with
      | none => rfl
      | some r =>
        exfalso
        rw [aux1_j1 hm] at htame
        exact absurd htame (by simp)

/-- The first restore pass undoes the first protection pass on rendered
token lists whose raw characters never spell the first sentinel core. -/
theorem restS_renderS : ∀ n us, us.length ≤ n → occursSub rcore1 us = false →
    restS (renderS us) = renderM us := by
  intro n
  induction n with
  | zero =>
    intro us hn _
    have : us = [] := List.length_eq_zero.mp (Nat.le_zero.mp hn)
    subst this; rfl
  | succ n ih =>
    intro us hn htame
    cases us with
    | nil => rfl
    | cons t us2 =>
      have hus2 : us2.length ≤ n := by simpa using hn
      have htame2 : occursSub rcore1 us2 = false := by
        simp only [occursSub, Bool.or_eq_false_iff] at htame
        exact htame.2
      cases t with
      | e1 =>
        rw [show renderS (QTok.e1 :: us2) = sent1 ++ renderS us2 from rfl]
        rw [show restS (sent1 ++ renderS us2) =
          escS ++ restS (renderS us2) from by
            unfold restS
            exact pyReplace_match_ne (by simp [sent1]) (by simp [sent1])
              (matchPre_append sent1 (renderS us2))]
        rw [ih us2 hus2 htame2]
        rfl
      | e2 =>
        rw [show renderS (QTok.e2 :: us2) = sent2 ++ renderS us2 from rfl]
        rw [restS_skip_sent2 htame2, ih us2 hus2 htame2]
        rfl
      | raw c =>
        rw [show renderS (QTok.raw c :: us2) = c :: renderS us2 from rfl]
        cases hm : matchPre sent1 (c :: renderS us2) with
        | some r =>
          exfalso
          rw [show sent1 = '_' :: sent1.drop 1 from by decide] at hm
          simp only [matchPre] at hm
          split at hm
          · rw [aux1_j1 hm] at htame2
            exact absurd htame2 (by simp)
          · exact absurd hm (by simp)
        | none =>
          unfold restS
          rw [pyReplace_nomatch_ne (by simp [sent1]) hm]
          have := ih us2 hus2 htame2
          unfold restS at this
          rw [this]
          rfl

/-- The second restore pass undoes the second protection pass on
half-restored token lists whose raw characters never spell the second
sentinel core. -/
theorem restD_renderM : ∀ n us, us.length ≤ n → occursSub rcore2 us = false →
    restD (renderM us) = renderF us := by
  intro n
  induction n with
  | zero =>
    intro us hn _
    have : us = [] := List.length_eq_zero.mp (Nat.le_zero.mp hn)
    subst this; rfl
  | succ n ih =>
    intro us hn htame
    cases us with
    | nil => rfl
    | cons t us2 =>
      have hus2 : us2.length ≤ n := by simpa using hn
      have htame2 : occursSub rcore2 us2 = false := by
        simp only [occursSub, Bool.or_eq_false_iff] at htame
        exact htame.2
      cases t with
      | e1 =>
        rw [show renderM (QTok.e1 :: us2) = '\\' :: squote :: renderM us2 from rfl]
        have hm1 : matchPre sent2 ('\\' :: squote :: renderM us2) = none := by
          rw [show sent2 = '_' :: sent2.drop 1 from by decide]
          exact matchPre_none_head (by decide)
        have hm2 : matchPre sent2 (squote :: renderM us2) = none := by
          rw [show sent2 = '_' :: sent2.drop 1 from by decide]
          exact matchPre_none_head (by decide)
        unfold restD
        rw [pyReplace_nomatch_ne (by simp [sent2]) hm1]
        rw [pyReplace_nomatch_ne (by simp [sent2]) hm2]
        have := ih us2 hus2 htame2
        unfold restD at this
        rw [this]
        rfl
      | e2 =>
        rw [show renderM (QTok.e2 :: us2) = sent2 ++ renderM us2 from rfl]
        rw [show restD (sent2 ++ renderM us2) =
          escD ++ restD (renderM us2) from by
            unfold restD
            exact pyReplace_match_ne (by simp [sent2]) (by simp [sent2])
              (matchPre_append sent2 (renderM us2))]
        rw [ih us2 hus2 htame2]
        rfl
      | raw c =>
        rw [show renderM (QTok.raw c :: us2) = c :: renderM us2 from rfl]
        cases hm : matchPre sent2 (c :: renderM us2) with
        | some r =>
          exfalso
          rw [show sent2 = '_' :: sent2.drop 1 from by decide] at hm
          simp only [matchPre] at hm
          split at hm
          · rw [aux2_j1 hm] at htame2
            exact absurd htame2 (by simp)
          · exact absurd hm (by simp)
        | none =>
          unfold restD
          rw [pyReplace_nomatch_ne (by simp [sent2]) hm]
          have := ih us2 hus2 htame2
          unfold restD at this
          rw [this]
          rfl

/-! ## Transfer of the tameness side conditions -/

theorem matchPre_tok_transfer {pat : List Char}
    (hpat : ∀ p ∈ pat, ¬ p = '\\') :
    ∀ l r, matchPre (pat.map QTok.raw) (tok l) = some r →
    ∃ r2, matchPre pat l = some r2 := by
  induction pat with
  | nil => intro l r _; exact ⟨l, rfl⟩
  | cons p ps ih =>
    intro l r hm
    rw [List.map_cons] at hm
    cases l with
    | nil => simp [tok, matchPre] at hm
    | cons c cs =>
      cases cs with
      | nil =>
        rw [show tok [c] = [QTok.raw c] from rfl] at hm
        simp only [matchPre] at hm
        split at hm
        · rename_i hpc
          have hc : p = c := by
            injection hpc
          cases hps : ps with
          | nil =>
            exact ⟨[], by simp [matchPre, hc]⟩
          | cons q qs =>
            rw [hps, List.map_cons] at hm
            simp [matchPre] at hm
        · exact absurd hm (by simp)
      | cons d ds =>
        by_cases hc : c = '\\'
        · subst hc
          by_cases hd : d = squote
          · subst hd
            rw [show tok ('\\' :: squote :: ds) = QTok.e1 :: tok ds from by
              simp +decide [tok]] at hm
            simp only [matchPre] at hm
            split at hm
            · rename_i hpc; simp at hpc
            · exact absurd hm (by simp)
          · by_cases hd2 : d = '"'
            · subst hd2
              rw [show tok ('\\' :: '"' :: ds) = QTok.e2 :: tok ds from by
                simp +decide [tok]] at hm
              simp only [matchPre] at hm
              split at hm
              · rename_i hpc; simp at hpc
              · exact absurd hm (by simp)
            · rw [show tok ('\\' :: d :: ds) = QTok.raw '\\' :: tok (d :: ds) from by
                simp [tok, hd, hd2]] at hm
              simp only [matchPre] at hm
              split at hm
              · rename_i hpc
                have : p = '\\' := by injection hpc
                exact absurd this (hpat p (by simp))
              · exact absurd hm (by simp)
        · rw [show tok (c :: d :: ds) = QTok.raw c :: tok (d :: ds) from by
            simp [tok, hc]] at hm
          simp only [matchPre] at hm
          split at hm
          · rename_i hpc
            have hc2 : p = c := by injection hpc
            obtain ⟨r2, hr2⟩ := ih (fun q hq => hpat q (by simp [hq])) (d :: ds) r hm
            exact ⟨r2, by simp [matchPre, hc2, hr2]⟩
          · exact absurd hm (by simp)

theorem occursSub_tok_transfer {pat : List Char}
    (hpat : ∀ p ∈ pat, ¬ p = '\\') (hne : pat ≠ []) :
    ∀ n l, l.length ≤ n → occursSub (pat.map QTok.raw) (tok l) = true →
    occursSub pat l = true := by
  intro n
  induction n with
  | zero =>
    intro l hn hocc
    have : l = [] := List.length_eq_zero.mp (Nat.le_zero.mp hn)
    subst this
    rw [show tok [] = [] from rfl] at hocc
    simp only [occursSub] at hocc
    rw [matchPre_none_of_long (by simp; cases pat with
      | nil => exact absurd rfl hne
      | cons q qs => simp)] at hocc
    simp at hocc
  | succ n ih =>
    intro l hn hocc
    cases l with
    | nil =>
      rw [show tok [] = [] from rfl] at hocc
      simp only [occursSub] at hocc
      rw [matchPre_none_of_long (by simp; cases pat with
        | nil => exact absurd rfl hne
        | cons q qs => simp)] at hocc
      simp at hocc
    | cons c cs =>
      -- decompose tok (c :: cs) as head token :: tok of a tail
      have hstep : ∃ t l2, tok (c :: cs) = t :: tok l2 ∧ l2.length + 1 ≤ (c :: cs).length ∧
          (occursSub pat l2 = true → occursSub pat (c :: cs) = true) := by
        cases cs with
        | nil =>
          exact ⟨QTok.raw c, [], by simp [tok], by simp,
            fun h => by
              rw [show occursSub pat ([] : List Char) =
                (matchPre pat ([] : List Char)).isSome from rfl] at h
              rw [matchPre_none_of_long (by cases pat with
                | nil => exact absurd rfl hne
                | cons q2 qs => simp)] at h
              simp at h⟩
        | cons d ds =>
          by_cases hc : c = '\\'
          · subst hc
            by_cases hd : d = squote
            · subst hd
              exact ⟨QTok.e1, ds, by simp +decide [tok], by simp,
                fun h => occursSub_cons_mono _ (occursSub_cons_mono _ h)⟩
            · by_cases hd2 : d = '"'
              · subst hd2
                exact ⟨QTok.e2, ds, by simp +decide [tok], by simp,
                  fun h => occursSub_cons_mono _ (occursSub_cons_mono _ h)⟩
              · exact ⟨QTok.raw '\\', d :: ds, by simp [tok, hd, hd2], by simp,
                  fun h => occursSub_cons_mono _ h⟩
          · exact ⟨QTok.raw c, d :: ds, by simp [tok, hc], by simp,
              fun h => occursSub_cons_mono _ h⟩
      obtain ⟨t, l2, htok, hlen, hmono⟩ := hstep
      rw [htok] at hocc
      simp only [occursSub, Bool.or_eq_true] at hocc
      rcases hocc with hocc | hocc
      · rw [← htok] at hocc
        cases hmp : matchPre (pat.map QTok.raw) (tok (c :: cs)) with
        | none => rw [hmp] at hocc; simp at hocc
        | some r =>
          obtain ⟨r2, hr2⟩ := matchPre_tok_transfer hpat (c :: cs) r hmp
          exact occursSub_of_matchPre hr2
      · have hl2 : l2.length ≤ n := by
          simp [List.length_cons] at hn hlen
          omega
        exact hmono (ih l2 hl2 hocc)

/-- The token relation induced by the quote conversion: a token is either
unchanged or a raw single quote turned into a raw double quote. -/
def flipRel (a b : QTok) : Prop :=
  b = a ∨ (a = QTok.raw squote ∧ b = QTok.raw '"')

theorem forall2_flip_refl (l : List QTok) : List.Forall₂ flipRel l l := by
  induction l with
  | nil => exact List.Forall₂.nil
  | cons t ts ih => exact List.Forall₂.cons (Or.inl rfl) ih

theorem forall2_flip_append {a b c d : List QTok}
    (h1 : List.Forall₂ flipRel a b) (h2 : List.Forall₂ flipRel c d) :
    List.Forall₂ flipRel (a ++ c) (b ++ d) := by
  induction h1 with
  | nil => exact h2
  | cons hx hrest ih => exact List.Forall₂.cons hx ih

theorem qtok_flip : ∀ n us, us.length ≤ n → List.Forall₂ flipRel us (qtok us) := by
  intro n
  induction n with
  | zero =>
    intro us hn
    have : us = [] := List.length_eq_zero.mp (Nat.le_zero.mp hn)
    subst this
    exact List.Forall₂.nil
  | succ n ih =>
    intro us hn
    cases us with
    | nil => exact List.Forall₂.nil
    | cons t ts =>
      have hts : ts.length ≤ n := by simpa using hn
      by_cases ht : t = QTok.raw squote
      · subst ht
        cases hs : splitQuoteT ts with
        | some p =>
          obtain ⟨a, b⟩ := p
          obtain ⟨heq, _⟩ := splitQuoteT_eq_append hs
          have hlen : a.length + b.length + 1 = ts.length := splitQuoteT_length hs
          rw [qtok_pair hs, heq]
          refine List.Forall₂.cons (Or.inr ⟨rfl, rfl⟩) ?_
          refine forall2_flip_append (forall2_flip_refl a) ?_
          exact List.Forall₂.cons (Or.inr ⟨rfl, rfl⟩) (ih b (by omega))
        | none =>
          rw [qtok_nopair hs]
          exact forall2_flip_refl _
      · rw [qtok_cons ht]
        exact List.Forall₂.cons (Or.inl rfl) (ih ts hts)

theorem forall2_matchPre_raw {pat : List Char}
    (hpat : ∀ p ∈ pat, ¬ p = '"') :
    ∀ us vs r, List.Forall₂ flipRel us vs →
    matchPre (pat.map QTok.raw) vs = some r →
    ∃ r2, matchPre (pat.map QTok.raw) us = some r2 := by
  induction pat with
  | nil => intro us vs r _ _; exact ⟨us, rfl⟩
  | cons p ps ih =>
    intro us vs r hrel hm
    rw [List.map_cons] at hm
    cases vs with
    | nil => simp [matchPre] at hm
    | cons v vs2 =>
      simp only [matchPre] at hm
      split at hm
      · rename_i hpv
        rw [List.forall₂_cons_right_iff] at hrel
        obtain ⟨u, us2, hflip, hrel2, rfl⟩ := hrel
        have hu : u = QTok.raw p := by
          rcases hflip with h | ⟨hh1, hh2⟩
          · rw [← h, ← hpv]
          · exfalso
            rw [hh2] at hpv
            have : p = '"' := by injection hpv
            exact hpat p (by simp) this
        obtain ⟨r2, hr2⟩ := ih (fun q hq => hpat q (by simp [hq])) us2 vs2 r hrel2 hm
        refine ⟨r2, ?_⟩
        rw [hu, List.map_cons]
        simp [matchPre, hr2]
      · exact absurd hm (by simp)

theorem forall2_occursSub_raw {pat : List Char}
    (hpat : ∀ p ∈ pat, ¬ p = '"') :
    ∀ us vs, List.Forall₂ flipRel us vs →
    occursSub (pat.map QTok.raw) vs = true →
    occursSub (pat.map QTok.raw) us = true := by
  intro us vs hrel
  induction hrel with
  | nil => intro h; exact h
  | cons hflip hrel2 ih =>
    rename_i u v us2 vs2
    intro hocc
    simp only [occursSub, Bool.or_eq_true] at hocc ⊢
    rcases hocc with hocc | hocc
    · cases hmp : matchPre (pat.map QTok.raw) (v :: vs2) with
      | none => rw [hmp] at hocc; simp at hocc
      | some r =>
        obtain ⟨r2, hr2⟩ := forall2_matchPre_raw hpat (u :: us2) (v :: vs2) r
          (List.Forall₂.cons hflip hrel2) hmp
        exact Or.inl (by simp [hr2])
    · exact Or.inr (ih hocc)

theorem forall2_count_e1 {us vs : List QTok} (hrel : List.Forall₂ flipRel us vs) :
    us.count QTok.e1 = vs.count QTok.e1 := by
  induction hrel with
  | nil => rfl
  | cons hflip hrel2 ih =>
    rcases hflip with h | ⟨hh1, hh2⟩
    · rw [h]
      simp [List.count_cons, ih]
    · rw [hh1, hh2]
      simp [List.count_cons, ih]

theorem forall2_count_e2 {us vs : List QTok} (hrel : List.Forall₂ flipRel us vs) :
    us.count QTok.e2 = vs.count QTok.e2 := by
  induction hrel with
  | nil => rfl
  | cons hflip hrel2 ih =>
    rcases hflip with h | ⟨hh1, hh2⟩
    · rw [h]
      simp [List.count_cons, ih]
    · rw [hh1, hh2]
      simp [List.count_cons, ih]

/-- Characterisation of the sentinel-bracketed conversion: on any input
whose text never spells one of the sentinel cores, the whole of lines
72-83 equals the token-level conversion, in which escaped-quote sequences
are atomic tokens. -/
theorem sentinelConvert_tokens (l : List Char)
    (h1 : occursSub core1 l = false) (h2 : occursSub core2 l = false) :
    sentinelConvert l = renderF (qtok (tok l)) := by
  unfold sentinelConvert
  rw [show protD (protS l) = renderS (tok l) from protDS_renderS l.length l le_rfl]
  rw [quoteSub_renderS (tok l).length (tok l) le_rfl]
  have hflip := qtok_flip (tok l).length (tok l) le_rfl
  have tame1 : occursSub rcore1 (qtok (tok l)) = false := by
    cases hb : occursSub rcore1 (qtok (tok l)) with
    | false => rfl
    | true =>
      exfalso
      have := @forall2_occursSub_raw core1 (by decide) _ _ hflip hb
      have := @occursSub_tok_transfer core1 (by decide) (by decide)
        l.length l le_rfl this
      rw [this] at h1
      exact absurd h1 (by simp)
  have tame2 : occursSub rcore2 (qtok (tok l)) = false := by
    cases hb : occursSub rcore2 (qtok (tok l)) with
    | false => rfl
    | true =>
      exfalso
      have := @forall2_occursSub_raw core2 (by decide) _ _ hflip hb
      have := @occursSub_tok_transfer core2 (by decide) (by decide)
        l.length l le_rfl this
      rw [this] at h2
      exact absurd h2 (by simp)
  rw [restS_renderS (qtok (tok l)).length (qtok (tok l)) le_rfl tame1]
  rw [restD_renderM (qtok (tok l)).length (qtok (tok l)) le_rfl tame2]

/-- CLAIM C3.  Single-quote-delimited dictionary-literal input has its
single-quote string delimiters converted to double quotes (the spec's
example evaluates through the full normalizer), and escaped-quote
sequences survive the sentinel-bracketed single-to-double conversion
unchanged: on every input not spelling a sentinel core, the whole
conversion block (protect, convert, restore) equals the token-level
conversion in which escaped-quote sequences are atomic tokens, and the
conversion preserves every escape token. -/
theorem C3_single_quote_conversion :
    cleanJsonResponse "\x7b\x27a\x27: \x27x\x27, \x27b\x27: \x27y\x27\x7d" =
      "\x7b\"a\": \"x\", \"b\": \"y\"\x7d" ∧
    sentinelConvert "\x7b\x27a\x27: \x27it\\\x27s\x27\x7d".data =
      "\x7b\"a\": \"it\\\x27s\"\x7d".data ∧
    ∀ l, occursSub core1 l = false → occursSub core2 l = false →
      sentinelConvert l = renderF (qtok (tok l)) ∧
      (qtok (tok l)).count QTok.e1 = (tok l).count QTok.e1 ∧
      (qtok (tok l)).count QTok.e2 = (tok l).count QTok.e2 := by
  refine ⟨by decide, by decide, ?_⟩
  intro l h1 h2
  have hflip := qtok_flip (tok l).length (tok l) le_rfl
  exact ⟨sentinelConvert_tokens l h1 h2, (forall2_count_e1 hflip).symm,
    (forall2_count_e2 hflip).symm⟩

/-- Witness for claim C3 at a concrete input containing an escaped quote. -/
theorem C3_single_quote_conversion_witness :
    occursSub core1 "\x7b\x27k\x27: \x27don\\\x27t\x27\x7d".data = false ∧
    occursSub core2 "\x7b\x27k\x27: \x27don\\\x27t\x27\x7d".data = false ∧
    (sentinelConvert "\x7b\x27k\x27: \x27don\\\x27t\x27\x7d".data =
      renderF (qtok (tok "\x7b\x27k\x27: \x27don\\\x27t\x27\x7d".data)) ∧
     (qtok (tok "\x7b\x27k\x27: \x27don\\\x27t\x27\x7d".data)).count QTok.e1 =
      (tok "\x7b\x27k\x27: \x27don\\\x27t\x27\x7d".data).count QTok.e1 ∧
     (qtok (tok "\x7b\x27k\x27: \x27don\\\x27t\x27\x7d".data)).count QTok.e2 =
      (tok "\x7b\x27k\x27: \x27don\\\x27t\x27\x7d".data).count QTok.e2) :=
  ⟨by decide, by decide,
    C3_single_quote_conversion.2.2 "\x7b\x27k\x27: \x27don\\\x27t\x27\x7d".data
      (by decide) (by decide)⟩

/-! ## Claim C6: brace escaping before template substitution

`_escape_braces` (`chatbot.py` lines 47-48) and the inline
`.replace('\x7b','\x7b\x7b').replace('\x7d','\x7d\x7d')` of
`generate_rag_content` (`rag.py` line 197) double every brace before the
text is spliced into a `PromptTemplate`.  The template substitution is the
Python `str.format` scanner: `\x7b\x7b`/`\x7d\x7d` are literal braces,
`\x7bname\x7d` is a placeholder, and a stray single brace is an error. -/

/-- The left and right brace characters. -/
def lbrace : Char := '\x7b'

/-- The right brace character. -/
def rbrace : Char := '\x7d'

/-- Embedding of `_escape_braces` / the brace-doubling `replace` chain. -/
def escapeBraces (l : List Char) : List Char :=
  pyReplace [rbrace] [rbrace, rbrace] (pyReplace [lbrace] [lbrace, lbrace] l)

/-- `_escape_braces` on strings. -/
def escapeBracesS (s : String) : String := (escapeBraces s.data).asString

/-- Fuelled scanner of Python `str.format`: state `none` is literal mode,
state `some acc` is inside a placeholder field with `acc` the reversed
field name read so far.  Doubled braces are literal braces, a brace pair
around a name is a placeholder, a stray single brace is an error. -/
def fmtGo (vars : List (String × String)) : Nat → Option (List Char) → List Char → Option (List Char)
  | _, none, [] => some []
  | _, some _, [] => none
  | 0, _, _ :: _ => none
  | Nat.succ n, none, c :: rest =>
    if c = lbrace then
      match rest with
      | d :: rest2 =>
        if d = lbrace then (fmtGo vars n none rest2).map (fun r => lbrace :: r)
        else fmtGo vars n (some []) (d :: rest2)
      | [] => fmtGo vars n (some []) []
    else if c = rbrace then
      match rest with
      | d :: rest2 =>
        if d = rbrace then (fmtGo vars n none rest2).map (fun r => rbrace :: r)
        else none
      | [] => none
    else (fmtGo vars n none rest).map (fun r => c :: r)
  | Nat.succ n, some acc, c :: rest =>
    if c = rbrace then
      match vars.find? (fun kv => kv.1.data = acc.reverse) with
      | some kv => (fmtGo vars n none rest).map (fun r => kv.2.data ++ r)
      | none => none
    else if c = lbrace then none
    else fmtGo vars n (some (c :: acc)) rest

/-- Literal-mode entry point of the `str.format` scanner. -/
def fmtLit (vars : List (String × String)) (l : List Char) : Option (List Char) :=
  fmtGo vars l.length none l

/-- Field-mode entry point of the `str.format` scanner. -/
def fmtField (vars : List (String × String)) (acc : List Char) (l : List Char) : Option (List Char) :=
  fmtGo vars l.length (some acc) l

/-- Model of `PromptTemplate.format` (Python `str.format`). -/
def pyFormat (vars : List (String × String)) (s : String) : Option String :=
  (fmtLit vars s.data).map List.asString

theorem fmtGo_fuel (vars : List (String × String)) :
    ∀ n m st l, l.length ≤ n → l.length ≤ m →
      fmtGo vars n st l = fmtGo vars m st l := by
  intro n
  induction n with
  | zero =>
    intro m st l hn _
    have : l = [] := List.length_eq_zero.mp (Nat.le_zero.mp hn)
    subst this
    cases m <;> cases st <;> rfl
  | succ n ih =>
    intro m st l hn hm
    cases l with
    | nil => cases m <;> cases st <;> rfl
    | cons c cs =>
      cases m with
      | zero => simp at hm
      | succ m =>
        have hn1 : cs.length ≤ n := by simpa using hn
        have hm1 : cs.length ≤ m := by simpa using hm
        cases st with
        | none =>
          simp only [fmtGo]
          by_cases hc : c = lbrace
          · rw [if_pos hc, if_pos hc]
            cases cs with
            | nil => rfl
            | cons d ds =>
              dsimp only
              have hd2 : ds.length ≤ n := by simp at hn1; omega
              have hd2m : ds.length ≤ m := by simp at hm1; omega
              by_cases hd : d = lbrace
              · rw [if_pos hd, if_pos hd, ih m none ds hd2 hd2m]
              · rw [if_neg hd, if_neg hd, ih m (some []) (d :: ds) hn1 hm1]
          · rw [if_neg hc, if_neg hc]
            by_cases hc2 : c = rbrace
            · rw [if_pos hc2, if_pos hc2]
              cases cs with
              | nil => rfl
              | cons d ds =>
                dsimp only
                have hd2 : ds.length ≤ n := by simp at hn1; omega
                have hd2m : ds.length ≤ m := by simp at hm1; omega
                by_cases hd : d = rbrace
                · rw [if_pos hd, if_pos hd, ih m none ds hd2 hd2m]
                · rw [if_neg hd, if_neg hd]
            · rw [if_neg hc2, if_neg hc2, ih m none cs hn1 hm1]
        | some acc =>
          simp only [fmtGo]
          by_cases hc : c = rbrace
          · rw [if_pos hc, if_pos hc]
            cases vars.find? (fun kv => kv.1.data = acc.reverse) with
            | some kv => dsimp only; rw [ih m none cs hn1 hm1]
            | none => dsimp only
          · rw [if_neg hc, if_neg hc]
            by_cases hc2 : c = lbrace
            · rw [if_pos hc2, if_pos hc2]
            · rw [if_neg hc2, if_neg hc2, ih m (some (c :: acc)) cs hn1 hm1]

theorem fmtLit_nil (vars : List (String × String)) : fmtLit vars [] = some [] := rfl

theorem fmtLit_lbrace (vars : List (String × String)) (rest : List Char) :
    fmtLit vars (lbrace :: lbrace :: rest) =
      (fmtLit vars rest).map (fun r => lbrace :: r) := by
  have h1 : fmtLit vars (lbrace :: lbrace :: rest) =
      (fmtGo vars (rest.length + 1) none rest).map (fun r => lbrace :: r) := rfl
  rw [h1, fmtGo_fuel vars (rest.length + 1) rest.length none rest (by omega) (by omega)]
  rfl

theorem fmtLit_rbrace (vars : List (String × String)) (rest : List Char) :
    fmtLit vars (rbrace :: rbrace :: rest) =
      (fmtLit vars rest).map (fun r => rbrace :: r) := by
  have h1 : fmtLit vars (rbrace :: rbrace :: rest) =
      (fmtGo vars (rest.length + 1) none rest).map (fun r => rbrace :: r) := rfl
  rw [h1, fmtGo_fuel vars (rest.length + 1) rest.length none rest (by omega) (by omega)]
  rfl

theorem fmtLit_plain (vars : List (String × String)) {c : Char} (rest : List Char)
    (hc : ¬ c = lbrace) (hc2 : ¬ c = rbrace) :
    fmtLit vars (c :: rest) = (fmtLit vars rest).map (fun r => c :: r) := by
  unfold fmtLit
  simp only [List.length_cons, fmtGo]
  rw [if_neg hc, if_neg hc2]

theorem escapeBraces_nil : escapeBraces [] = [] := rfl

theorem escapeBraces_cons (c : Char) (l : List Char) :
    escapeBraces (c :: l) =
      (if c = lbrace then [lbrace, lbrace]
       else if c = rbrace then [rbrace, rbrace]
       else [c]) ++ escapeBraces l := by
  unfold escapeBraces
  by_cases hc : c = lbrace
  · subst hc
    rw [@pyReplace_match [lbrace] [lbrace, lbrace] lbrace l l (by simp)
      (show matchPre [lbrace] (lbrace :: l) = some l from by simp [matchPre])]
    rw [show ([lbrace, lbrace] : List Char) ++ pyReplace [lbrace] [lbrace, lbrace] l =
      lbrace :: lbrace :: pyReplace [lbrace] [lbrace, lbrace] l from rfl]
    rw [pyReplace_nomatch [rbrace, rbrace] (by simp) (matchPre_none_head (by decide))]
    rw [pyReplace_nomatch [rbrace, rbrace] (by simp) (matchPre_none_head (by decide))]
    simp
  · rw [pyReplace_nomatch [lbrace, lbrace] (by simp)
      (matchPre_none_head (fun he => hc he.symm))]
    by_cases hc2 : c = rbrace
    · subst hc2
      rw [@pyReplace_match [rbrace] [rbrace, rbrace] rbrace
        (pyReplace [lbrace] [lbrace, lbrace] l) (pyReplace [lbrace] [lbrace, lbrace] l)
        (by simp)
        (show matchPre [rbrace] (rbrace :: pyReplace [lbrace] [lbrace, lbrace] l) =
          some (pyReplace [lbrace] [lbrace, lbrace] l) from by simp [matchPre])]
      simp [hc]
    · rw [pyReplace_nomatch [rbrace, rbrace] (by simp)
        (matchPre_none_head (fun he => hc2 he.symm))]
      simp [hc, hc2]

/-- Escaped text passes through the literal-mode scanner unchanged,
independently of the substitution variables. -/
theorem fmtLit_escape (vars : List (String × String)) :
    ∀ l X, fmtLit vars (escapeBraces l ++ X) =
      (fmtLit vars X).map (fun r => l ++ r) := by
  intro l
  induction l with
  | nil =>
    intro X
    rw [escapeBraces_nil, List.nil_append]
    cases fmtLit vars X <;> simp
  | cons c l ih =>
    intro X
    rw [escapeBraces_cons]
    by_cases hc : c = lbrace
    · subst hc
      rw [if_pos rfl]
      rw [show ([lbrace, lbrace] : List Char) ++ escapeBraces l ++ X =
        lbrace :: lbrace :: (escapeBraces l ++ X) from by simp]
      rw [fmtLit_lbrace, ih X]
      cases fmtLit vars X <;> simp
    · rw [if_neg hc]
      by_cases hc2 : c = rbrace
      · subst hc2
        rw [if_pos rfl]
        rw [show ([rbrace, rbrace] : List Char) ++ escapeBraces l ++ X =
          rbrace :: rbrace :: (escapeBraces l ++ X) from by simp]
        rw [fmtLit_rbrace, ih X]
        cases fmtLit vars X <;> simp
      · rw [if_neg hc2]
        rw [show ([c] : List Char) ++ escapeBraces l ++ X =
          c :: (escapeBraces l ++ X) from by simp]
        rw [fmtLit_plain vars _ hc hc2, ih X]
        cases fmtLit vars X <;> simp

theorem fmtLit_single_lbrace (vars : List (String × String)) :
    fmtLit vars [lbrace] = none := rfl

theorem fmtLit_single_rbrace (vars : List (String × String)) :
    fmtLit vars [rbrace] = none := rfl

theorem fmtLit_open (vars : List (String × String)) {d : Char} (ds : List Char)
    (hd : ¬ d = lbrace) :
    fmtLit vars (lbrace :: d :: ds) = fmtField vars [] (d :: ds) := by
  have h1 : fmtLit vars (lbrace :: d :: ds) =
      (if d = lbrace then (fmtGo vars (ds.length + 1) none ds).map (fun r => lbrace :: r)
       else fmtGo vars (ds.length + 1) (some []) (d :: ds)) := rfl
  rw [h1, if_neg hd]
  rfl

theorem fmtLit_rbrace_err (vars : List (String × String)) {d : Char} (ds : List Char)
    (hd : ¬ d = rbrace) :
    fmtLit vars (rbrace :: d :: ds) = none := by
  have h1 : fmtLit vars (rbrace :: d :: ds) =
      (if d = rbrace then (fmtGo vars (ds.length + 1) none ds).map (fun r => rbrace :: r)
       else none) := rfl
  rw [h1, if_neg hd]

theorem fmtField_nil (vars : List (String × String)) (acc : List Char) :
    fmtField vars acc [] = none := rfl

theorem fmtField_close (vars : List (String × String)) (acc : List Char) (rest : List Char) :
    fmtField vars acc (rbrace :: rest) =
      match vars.find? (fun kv => kv.1.data = acc.reverse) with
      | some kv => (fmtLit vars rest).map (fun r => kv.2.data ++ r)
      | none => none := rfl

theorem fmtField_open_err (vars : List (String × String)) (acc : List Char) (rest : List Char) :
    fmtField vars acc (lbrace :: rest) = none := rfl

theorem fmtField_plain (vars : List (String × String)) (acc : List Char) {c : Char}
    (rest : List Char) (hc : ¬ c = rbrace) (hc2 : ¬ c = lbrace) :
    fmtField vars acc (c :: rest) = fmtField vars (c :: acc) rest := by
  have h1 : fmtField vars acc (c :: rest) =
      (if c = rbrace then
        (match vars.find? (fun kv => kv.1.data = acc.reverse) with
         | some kv => (fmtGo vars rest.length none rest).map (fun r => kv.2.data ++ r)
         | none => none)
       else if c = lbrace then none
       else fmtGo vars rest.length (some (c :: acc)) rest) := rfl
  rw [h1, if_neg hc, if_neg hc2]
  rfl

/-- A fully scanned prefix composes: scanning `a ++ b` first produces the
output for `a`, then continues with `b` in literal mode. -/
theorem fmt_comp (vars : List (String × String)) : ∀ n a, a.length ≤ n → ∀ b,
    (∀ ra, fmtLit vars a = some ra →
      fmtLit vars (a ++ b) = (fmtLit vars b).map (fun r => ra ++ r)) ∧
    (∀ acc ra, fmtField vars acc a = some ra →
      fmtField vars acc (a ++ b) = (fmtLit vars b).map (fun r => ra ++ r)) := by
  intro n
  induction n with
  | zero =>
    intro a hn b
    have : a = [] := List.length_eq_zero.mp (Nat.le_zero.mp hn)
    subst this
    constructor
    · intro ra hra
      rw [show fmtLit vars [] = some [] from rfl] at hra
      have : ra = [] := by simpa using hra.symm
      subst this
      rw [List.nil_append]
      cases fmtLit vars b <;> simp
    · intro acc ra hra
      rw [fmtField_nil] at hra
      exact absurd hra (by simp)
  | succ n ih =>
    intro a hn b
    cases a with
    | nil =>
      constructor
      · intro ra hra
        rw [show fmtLit vars [] = some [] from rfl] at hra
        have : ra = [] := by simpa using hra.symm
        subst this
        rw [List.nil_append]
        cases fmtLit vars b <;> simp
      · intro acc ra hra
        rw [fmtField_nil] at hra
        exact absurd hra (by simp)
    | cons c cs =>
      have hcs : cs.length ≤ n := by simpa using hn
      constructor
      · intro ra hra
        by_cases hc : c = lbrace
        · subst hc
          cases cs with
          | nil =>
            rw [fmtLit_single_lbrace] at hra
            exact absurd hra (by simp)
          | cons d ds =>
            have hds : ds.length ≤ n := by simp at hcs; omega
            by_cases hd : d = lbrace
            · subst hd
              rw [fmtLit_lbrace] at hra
              cases hin : fmtLit vars ds with
              | none => rw [hin] at hra; simp at hra
              | some ra2 =>
                rw [hin] at hra
                simp at hra
                rw [show (lbrace :: lbrace :: ds) ++ b = lbrace :: lbrace :: (ds ++ b)
                  from rfl]
                rw [fmtLit_lbrace, (ih ds hds b).1 ra2 hin, ← hra]
                cases fmtLit vars b <;> simp
            · rw [fmtLit_open vars ds hd] at hra
              rw [show (lbrace :: d :: ds) ++ b = lbrace :: d :: (ds ++ b) from rfl]
              rw [fmtLit_open vars (ds ++ b) hd]
              exact (ih (d :: ds) hcs b).2 [] ra hra
        · by_cases hc2 : c = rbrace
          · subst hc2
            cases cs with
            | nil =>
              rw [fmtLit_single_rbrace] at hra
              exact absurd hra (by simp)
            | cons d ds =>
              have hds : ds.length ≤ n := by simp at hcs; omega
              by_cases hd : d = rbrace
              · subst hd
                rw [fmtLit_rbrace] at hra
                cases hin : fmtLit vars ds with
                | none => rw [hin] at hra; simp at hra
                | some ra2 =>
                  rw [hin] at hra
                  simp at hra
                  rw [show (rbrace :: rbrace :: ds) ++ b = rbrace :: rbrace :: (ds ++ b)
                    from rfl]
                  rw [fmtLit_rbrace, (ih ds hds b).1 ra2 hin, ← hra]
                  cases fmtLit vars b <;> simp
              · rw [fmtLit_rbrace_err vars ds hd] at hra
                exact absurd hra (by simp)
          · rw [fmtLit_plain vars cs hc hc2] at hra
            cases hin : fmtLit vars cs with
            | none => rw [hin] at hra; simp at hra
            | some ra2 =>
              rw [hin] at hra
              simp at hra
              rw [show (c :: cs) ++ b = c :: (cs ++ b) from rfl]
              rw [fmtLit_plain vars _ hc hc2, (ih cs hcs b).1 ra2 hin, ← hra]
              cases fmtLit vars b <;> simp
      · intro acc ra hra
        by_cases hc : c = rbrace
        · subst hc
          rw [fmtField_close] at hra
          cases hf : vars.find? (fun kv => kv.1.data = acc.reverse) with
          | none => rw [hf] at hra; simp at hra
          | some kv =>
            rw [hf] at hra
            cases hin : fmtLit vars cs with
            | none => rw [hin] at hra; simp at hra
            | some ra2 =>
              rw [hin] at hra
              simp at hra
              rw [show (rbrace :: cs) ++ b = rbrace :: (cs ++ b) from rfl]
              rw [fmtField_close, hf]
              rw [(ih cs hcs b).1 ra2 hin, ← hra]
              cases fmtLit vars b <;> simp
        · by_cases hc2 : c = lbrace
          · subst hc2
            rw [fmtField_open_err] at hra
            exact absurd hra (by simp)
          · rw [fmtField_plain vars acc cs hc hc2] at hra
            rw [show (c :: cs) ++ b = c :: (cs ++ b) from rfl]
            rw [fmtField_plain vars acc _ hc hc2]
            exact (ih cs hcs b).2 (c :: acc) ra hra

theorem asString_append (l1 l2 : List Char) :
    (l1 ++ l2).asString = l1.asString ++ l2.asString := rfl

/-- CLAIM C6.  Escaping every literal brace of a free-form block by
doubling it, splicing the escaped block between two template parts that
themselves substitute successfully, and then running placeholder
substitution on the whole template reproduces the original literal text of
the block in the final prompt (escape then substitute round-trips). -/
theorem C6_escape_then_substitute_roundtrip
    (vars : List (String × String)) (pre post s rpre rpost : String)
    (hpre : pyFormat vars pre = some rpre)
    (hpost : pyFormat vars post = some rpost) :
    pyFormat vars (pre ++ escapeBracesS s ++ post) = some (rpre ++ s ++ rpost) := by
  unfold pyFormat at hpre hpost ⊢
  cases hp1 : fmtLit vars pre.data with
  | none => rw [hp1] at hpre; simp at hpre
  | some la =>
    rw [hp1] at hpre
    simp at hpre
    cases hp2 : fmtLit vars post.data with
    | none => rw [hp2] at hpost; simp at hpost
    | some lb =>
      rw [hp2] at hpost
      simp at hpost
      have hla : la = rpre.data := by rw [← hpre]; rfl
      have hlb : lb = rpost.data := by rw [← hpost]; rfl
      have hdata : (pre ++ escapeBracesS s ++ post).data =
          pre.data ++ (escapeBraces s.data ++ post.data) := by
        rw [str_data_append, str_data_append]
        simp [escapeBracesS, asString_data]
      rw [hdata]
      rw [(fmt_comp vars pre.data.length pre.data le_rfl
        (escapeBraces s.data ++ post.data)).1 la hp1]
      rw [fmtLit_escape vars s.data post.data, hp2]
      rw [hla, hlb]
      show some ((rpre.data ++ (s.data ++ rpost.data)).asString) = some (rpre ++ s ++ rpost)
      rw [show rpre.data ++ (s.data ++ rpost.data) = (rpre ++ s ++ rpost).data from by
        rw [str_data_append, str_data_append]; simp]
      rw [data_asString]

/-- Witness for claim C6 at a concrete template and context block. -/
theorem C6_escape_then_substitute_roundtrip_witness :
    pyFormat [("name", "VALUE")] "A \x7bname\x7d: " = some "A VALUE: " ∧
    pyFormat [("name", "VALUE")]
      ("A \x7bname\x7d: " ++ escapeBracesS "ctx \x7bhistory\x7d" ++ " end") =
      some ("A VALUE: " ++ "ctx \x7bhistory\x7d" ++ " end") :=
  ⟨by decide, C6_escape_then_substitute_roundtrip [("name", "VALUE")]
    "A \x7bname\x7d: " " end" "ctx \x7bhistory\x7d" "A VALUE: " " end"
    (by decide) (by decide)⟩

/-! ## Python dict lookups over parsed JSON objects

`json.load`/`json.loads` build Python dicts, so a duplicated key keeps its
last value; `jdictGet` models `d.get(key)` with that last-wins rule, and
`hasKey` models `key in d.keys()`. -/

def jdictGet (kvs : List (List Char × Json)) (key : List Char) : Option Json :=
  kvs.foldl (fun acc kv => if kv.1 = key then some kv.2 else acc) none

def hasKey (kvs : List (List Char × Json)) (key : List Char) : Bool :=
  kvs.any (fun kv => kv.1 = key)

/-! ## `generate_command` response validation (`api.py` lines 87-109)

The endpoint parses the LLM response with `json.loads` and then checks
`set(CommandGenerationResponse.model_fields) - parsed.keys()`
(`main.py` line 102 spells the same set literally as
`{"commands", "explanation"}`; the `CommandGenerationResponse` pydantic
model itself is imported from `cyber_query_ai.models`, where its two
fields `commands: list[str]` and `explanation: str` are established by
the construction sites in `api.py`/`main.py` and by
`formatters.py:format_command_generation`).  If keys are missing it
returns `CommandGenerationResponse(commands=[], explanation=msg)`; else
it returns `CommandGenerationResponse(**parsed)`, where pydantic
validation of a wrongly typed field raises and is caught by the outer
`except Exception`, producing an HTTP 500. -/

structure CommandGenerationResponse where
  commands : List (List Char)
  explanation : List Char
deriving DecidableEq

/-- Outcome classification of the validation step: the happy-path model
construction, the missing-keys fallback response (paired with the missing
set it reports), or a propagated exception. -/
inductive CmdGenOutcome where
  | accepted (r : CommandGenerationResponse) : CmdGenOutcome
  | degraded (r : CommandGenerationResponse) (missing : List (List Char)) : CmdGenOutcome
  | failed : CmdGenOutcome
deriving DecidableEq

def cmdRequiredFields : List (List Char) := ["commands".data, "explanation".data]

/-- The required fields absent from the payload
(`set(CommandGenerationResponse.model_fields) - parsed.keys()`).  CPython
iterates small string sets in an unspecified order; the model fixes the
field order `commands`, `explanation`. -/
def cmdMissing (parsed : List (List Char × Json)) : List (List Char) :=
  cmdRequiredFields.filter (fun f => !(hasKey parsed f))

def intercalateL (sep : List Char) : List (List Char) → List Char
  | [] => []
  | [x] => x
  | x :: y :: rest => x ++ sep ++ intercalateL sep (y :: rest)

/-- Rendering of the Python set in the f-string
`f"Missing required keys in LLM response: {missing_keys}"`. -/
def setRepr (keys : List (List Char)) : List Char :=
  '\x7b' :: (intercalateL ", ".data (keys.map (fun k => squote :: (k ++ [squote]))) ++ ['\x7d'])

def missingMsg (keys : List (List Char)) : List Char :=
  "Missing required keys in LLM response: ".data ++ setRepr keys

/-- Pydantic coercion of a JSON value to the `str` field type. -/
def asStrJ : Json → Option (List Char)
  | Json.jstr s => some s
  | _ => none

/-- Pydantic coercion of a JSON value to the `list[str]` field type. -/
def asStrListJ : Json → Option (List (List Char))
  | Json.jarr items => items.mapM asStrJ
  | _ => none

/-- The validation step of `generate_command` (`api.py` lines 96-105,
identically `main.py` lines 101-106) applied to the dict produced by
`json.loads`: compute the missing required keys; if any are missing,
return the fallback response `commands=[], explanation=msg`; otherwise
build `CommandGenerationResponse(**parsed)` (a type error there raises
out of the validation step). -/
def generateCommandValidate (parsed : List (List Char × Json)) : CmdGenOutcome :=
  let missing := cmdMissing parsed
  if missing.isEmpty then
    match jdictGet parsed "commands".data, jdictGet parsed "explanation".data with
    | some jc, some je =>
      match asStrListJ jc, asStrJ je with
      | some cs, some e => CmdGenOutcome.accepted ⟨cs, e⟩
      | _, _ => CmdGenOutcome.failed
    | _, _ => CmdGenOutcome.failed
  else
    CmdGenOutcome.degraded ⟨[], missingMsg missing⟩ missing

/-- A payload that supplies `commands` but not `explanation`
(the claim C1 example). -/
def cmdPayloadC1 : List (List Char × Json) :=
  [("commands".data, Json.jarr [Json.jstr "nmap -sV 10.0.0.5".data])]

/-- CLAIM C1 (counterexample).  A payload that supplies `commands` but is
missing `explanation` is answered by the fallback response with
`commands=[]`: the received `commands` value is silently dropped, contrary
to the claim that received field values are preserved. -/
theorem C1_commands_dropped_counterexample :
    jdictGet cmdPayloadC1 "commands".data =
      some (Json.jarr [Json.jstr "nmap -sV 10.0.0.5".data]) ∧
    generateCommandValidate cmdPayloadC1 =
      CmdGenOutcome.degraded ⟨[], missingMsg ["explanation".data]⟩ ["explanation".data] :=
  ⟨rfl, rfl⟩

/-- CLAIM C1 (amended).  Whenever at least one required field is missing
from the parsed payload, the validation step never returns an accepted
outcome: it returns the degraded fallback whose message names exactly the
missing fields, but with every payload field reset to its empty default
(`commands=[]`), regardless of the values that were received. -/
theorem C1_missing_fields_all_defaulted (parsed : List (List Char × Json))
    (h : (cmdMissing parsed).isEmpty = false) :
    generateCommandValidate parsed =
      CmdGenOutcome.degraded ⟨[], missingMsg (cmdMissing parsed)⟩ (cmdMissing parsed) := by
  simp [generateCommandValidate, h]

/-- Witness for claim C1 at the concrete payload missing `explanation`. -/
theorem C1_missing_fields_all_defaulted_witness :
    (cmdMissing cmdPayloadC1).isEmpty = false ∧
    generateCommandValidate cmdPayloadC1 =
      CmdGenOutcome.degraded ⟨[], missingMsg (cmdMissing cmdPayloadC1)⟩
        (cmdMissing cmdPayloadC1) :=
  ⟨by decide, C1_missing_fields_all_defaulted cmdPayloadC1 (by decide)⟩

/-! ## `load_documents` and the tools catalog (`rag.py` lines 35-107)

The corpus directory state is modelled explicitly: whether `RAG_DATA_DIR`
exists, the content of `tools.json` when `TOOLS_FILEPATH` exists (`none`
models a missing file; an unreadable file behaves like an unparseable
one, since the surrounding `try` catches both), and the `*.txt` files
returned by the glob, each with its `TextLoader` outcome (`none` models
a loader exception for that file). -/

structure TxtFile where
  name : List Char
  content : Option (List Char)

structure FS where
  ragDirExists : Bool
  toolsFile : Option (List Char)
  txtFiles : List TxtFile

/-- A loaded document: `TextLoader` yields one document per text file,
whose metadata is then overwritten by `_get_file_metadata` (including the
`source` key). -/
structure Document where
  page_content : String
  metadata : List (List Char × Json)

/-- Embedding of `_load_tools_metadata` (`rag.py` lines 66-75): parse
`tools.json` when present; a missing, unreadable or unparseable file
yields the empty dict.  A parseable file of any top-level shape is
returned as is (Python does not check the annotated `dict` type). -/
def loadToolsMetadata (fs : FS) : Json :=
  match fs.toolsFile with
  | none => Json.jobj []
  | some content =>
    match parseJsonL content with
    | some j => j
    | none => Json.jobj []

/-- The default metadata dict built at `rag.py` lines 80-89. -/
def defaultMetadata (filename : List Char) : List (List Char × Json) :=
  [("source".data, Json.jstr filename),
   ("tool".data, Json.jstr "unknown".data),
   ("type".data, Json.jstr "manual".data),
   ("category".data, Json.jstr "unknown".data),
   ("subcategory".data, Json.jstr "unknown".data),
   ("description".data, Json.jstr []),
   ("tags".data, Json.jarr []),
   ("use_cases".data, Json.jarr [])]

/-- The metadata dict after `metadata.update({...})` at `rag.py` lines
94-104: every key of the default dict already exists, so the update
rewrites values in place and the key order is unchanged; `source` is not
part of the update and keeps the filename. -/
def metadataFromEntry (filename toolName : List Char)
    (ikvs : List (List Char × Json)) : List (List Char × Json) :=
  [("source".data, Json.jstr filename),
   ("tool".data, (jdictGet ikvs "name".data).getD (Json.jstr toolName)),
   ("type".data, (jdictGet ikvs "type".data).getD (Json.jstr "manual".data)),
   ("category".data, (jdictGet ikvs "category".data).getD (Json.jstr "unknown".data)),
   ("subcategory".data, (jdictGet ikvs "subcategory".data).getD (Json.jstr "unknown".data)),
   ("description".data, (jdictGet ikvs "description".data).getD (Json.jstr [])),
   ("tags".data, (jdictGet ikvs "tags".data).getD (Json.jarr [])),
   ("use_cases".data, (jdictGet ikvs "use_cases".data).getD (Json.jarr []))]

/-- The `for tool_name, tool_info in tools_metadata.items()` loop at
`rag.py` lines 92-105: stop at the first entry whose `file` field equals
the filename (`tool_info.get("file") == filename` is `False` when the
field is absent or not a string); `tool_info.get` on a non-dict entry
raises `AttributeError`, modelled as `Except.error`. -/
def findToolEntry (filename : List Char) :
    List (List Char × Json) → Except Unit (Option (List Char × List (List Char × Json)))
  | [] => Except.ok none
  | (toolName, info) :: rest =>
    match info with
    | Json.jobj ikvs =>
      match jdictGet ikvs "file".data with
      | some (Json.jstr f) =>
        if f = filename then Except.ok (some (toolName, ikvs))
        else findToolEntry filename rest
      | _ => findToolEntry filename rest
    | _ => Except.error ()

/-- Embedding of `_get_file_metadata` (`rag.py` lines 77-107).
`tools_metadata.items()` on a non-dict value raises `AttributeError`,
modelled as `Except.error`. -/
def getFileMetadata (filename : List Char) (tm : Json) :
    Except Unit (List (List Char × Json)) :=
  match tm with
  | Json.jobj kvs =>
    match findToolEntry filename kvs with
    | Except.error _ => Except.error ()
    | Except.ok none => Except.ok (defaultMetadata filename)
    | Except.ok (some (toolName, ikvs)) =>
      Except.ok (metadataFromEntry filename toolName ikvs)
  | _ => Except.error ()

/-- Embedding of `load_documents` (`rag.py` lines 35-64): return `[]`
when the directory is missing; otherwise, per text file, run the loader
and the metadata lookup inside `try`, skipping the file on any
exception, and append the loaded document with its merged metadata. -/
def loadDocuments (fs : FS) : List Document :=
  if fs.ragDirExists = false then []
  else
    let tm := loadToolsMetadata fs
    fs.txtFiles.foldl (fun documents tf =>
      match tf.content with
      | none => documents
      | some text =>
        match getFileMetadata tf.name tm with
        | Except.error _ => documents
        | Except.ok md => documents ++ [⟨text.asString, md⟩]) []

/-- Boolean form of the claim C8 side condition on a catalog entry: the
entry value is a dict and its `file` field does not select the given
filename. -/
def entryObjNoMatch (filename : List Char) (p : List Char × Json) : Bool :=
  match p.2 with
  | Json.jobj ikvs =>
    match jdictGet ikvs "file".data with
    | some (Json.jstr f) => decide (¬ f = filename)
    | some _ => true
    | none => true
  | _ => false

theorem getFileMetadata_empty (filename : List Char) :
    getFileMetadata filename (Json.jobj []) = Except.ok (defaultMetadata filename) := rfl

theorem loadLoop_empty_catalog (files : List TxtFile) (acc : List Document) :
    files.foldl (fun documents tf =>
      match tf.content with
      | none => documents
      | some text =>
        match getFileMetadata tf.name (Json.jobj []) with
        | Except.error _ => documents
        | Except.ok md => documents ++ [⟨text.asString, md⟩]) acc
    = acc ++ files.filterMap
        (fun tf => tf.content.map (fun text => ⟨text.asString, defaultMetadata tf.name⟩)) := by
  induction files generalizing acc with
  | nil => simp
  | cons tf rest ih =>
    rw [List.foldl_cons, List.filterMap_cons]
    cases hc : tf.content with
    | none => exact ih acc
    | some text =>
      rw [getFileMetadata_empty tf.name]
      dsimp only
      rw [ih]
      simp

theorem findToolEntry_no_match (filename : List Char) (kvs : List (List Char × Json))
    (h : kvs.all (entryObjNoMatch filename) = true) :
    findToolEntry filename kvs = Except.ok none := by
  induction kvs with
  | nil => rfl
  | cons p rest ih =>
    rw [List.all_cons, Bool.and_eq_true] at h
    obtain ⟨hp, hrest⟩ := h
    obtain ⟨toolName, info⟩ := p
    cases info with
    | jobj ikvs =>
      rw [show findToolEntry filename ((toolName, Json.jobj ikvs) :: rest) =
          (match jdictGet ikvs "file".data with
           | some (Json.jstr f) =>
             if f = filename then Except.ok (some (toolName, ikvs))
             else findToolEntry filename rest
           | _ => findToolEntry filename rest) from rfl]
      unfold entryObjNoMatch at hp
      dsimp only at hp
      cases hg : jdictGet ikvs "file".data with
      | none => exact ih hrest
      | some j =>
        cases j with
        | jstr f =>
          rw [hg] at hp
          rw [decide_eq_true_iff] at hp
          dsimp only
          rw [if_neg hp]
          exact ih hrest
        | jnull => exact ih hrest
        | jtrue => exact ih hrest
        | jfalse => exact ih hrest
        | jnum raw => exact ih hrest
        | jarr items => exact ih hrest
        | jobj fields => exact ih hrest
    | jnull => exact absurd hp (by simp [entryObjNoMatch])
    | jtrue => exact absurd hp (by simp [entryObjNoMatch])
    | jfalse => exact absurd hp (by simp [entryObjNoMatch])
    | jnum raw => exact absurd hp (by simp [entryObjNoMatch])
    | jstr s => exact absurd hp (by simp [entryObjNoMatch])
    | jarr items => exact absurd hp (by simp [entryObjNoMatch])

/-- CLAIM C8.  The document loader never raises: a missing corpus
directory yields the empty list; when the catalog is missing or
unparseable (so the loaded metadata dict is empty) every readable text
file still produces a record with the default metadata (category
`unknown`, empty tags and use-case collections); and when every catalog
entry is a dict whose `file` field does not select the filename, the
metadata lookup returns the same defaults instead of failing. -/
theorem C8_document_loading_never_fails (fs gs : FS) (filename : List Char)
    (kvs : List (List Char × Json))
    (hdir : fs.ragDirExists = false)
    (hgdir : gs.ragDirExists = true)
    (hgcat : loadToolsMetadata gs = Json.jobj [])
    (hkvs : kvs.all (entryObjNoMatch filename) = true) :
    loadDocuments fs = [] ∧
    loadDocuments gs = gs.txtFiles.filterMap
      (fun tf => tf.content.map (fun text => ⟨text.asString, defaultMetadata tf.name⟩)) ∧
    getFileMetadata filename (Json.jobj kvs) = Except.ok (defaultMetadata filename) := by
  refine ⟨?_, ?_, ?_⟩
  · rw [loadDocuments, if_pos hdir]
  · rw [loadDocuments, if_neg (by rw [hgdir]; simp)]
    dsimp only
    rw [hgcat]
    exact (loadLoop_empty_catalog gs.txtFiles []).trans (by rw [List.nil_append])
  · rw [show getFileMetadata filename (Json.jobj kvs) =
        (match findToolEntry filename kvs with
         | Except.error _ => Except.error ()
         | Except.ok none => Except.ok (defaultMetadata filename)
         | Except.ok (some (toolName, ikvs)) =>
           Except.ok (metadataFromEntry filename toolName ikvs)) from rfl]
    rw [findToolEntry_no_match filename kvs hkvs]

def fsWitnessA : FS := ⟨false, some "\x7b\x7d".data, []⟩

def fsWitnessB : FS :=
  ⟨true, none, [⟨"nmap_help.txt".data, some "nmap docs".data⟩, ⟨"bad.txt".data, none⟩]⟩

def kvsWitness : List (List Char × Json) :=
  [("nmap".data, Json.jobj [("file".data, Json.jstr "other.txt".data)])]

/-- Witness for claim C8 at concrete directory states and a concrete
catalog with no matching entry. -/
theorem C8_document_loading_never_fails_witness :
    loadDocuments fsWitnessA = [] ∧
    loadDocuments fsWitnessB =
      [⟨"nmap docs", defaultMetadata "nmap_help.txt".data⟩] ∧
    getFileMetadata "nmap_help.txt".data (Json.jobj kvsWitness) =
      Except.ok (defaultMetadata "nmap_help.txt".data) :=
  ⟨(C8_document_loading_never_fails fsWitnessA fsWitnessB "nmap_help.txt".data kvsWitness
      rfl rfl rfl (by decide)).1,
   ((C8_document_loading_never_fails fsWitnessA fsWitnessB "nmap_help.txt".data kvsWitness
      rfl rfl rfl (by decide)).2.1).trans rfl,
   (C8_document_loading_never_fails fsWitnessA fsWitnessB "nmap_help.txt".data kvsWitness
      rfl rfl rfl (by decide)).2.2⟩

/-! ## `format_context` (`rag.py` lines 144-170)

Metadata values at the keys read here are the strings and string lists
that `_get_file_metadata` produces from a well-typed catalog; the getters
below are typed accordingly (`.get(key, default)` with the source's
defaults).  `joinSepS` is Python `sep.join`. -/

def pyStripS (s : String) : String := (pyStrip s.data).asString

def jmetaGetS (md : List (List Char × Json)) (key : List Char) (dflt : String) : String :=
  match jdictGet md key with
  | some (Json.jstr v) => v.asString
  | some _ => dflt
  | none => dflt

def jmetaGetTags (md : List (List Char × Json)) : List String :=
  match jdictGet md "tags".data with
  | some (Json.jarr items) =>
    items.map (fun j => match j with | Json.jstr s => s.asString | _ => "")
  | _ => []

def joinSepS (sep : String) : List String → String
  | [] => ""
  | [x] => x
  | x :: y :: rest => x ++ sep ++ joinSepS sep (y :: rest)

def ruler80 : String := (List.replicate 80 '=').asString

/-- The header built at `rag.py` lines 159-167: `Tool` always, then
`Category`, `Description` and `Tags` only when truthy (non-empty). -/
def docHeaderParts (d : Document) : List String :=
  ["Tool: " ++ jmetaGetS d.metadata "tool".data "unknown"]
  ++ (if jmetaGetS d.metadata "category".data "" = "" then []
      else ["Category: " ++ jmetaGetS d.metadata "category".data ""])
  ++ (if jmetaGetS d.metadata "description".data "" = "" then []
      else ["Description: " ++ jmetaGetS d.metadata "description".data ""])
  ++ (if jmetaGetTags d.metadata = [] then []
      else ["Tags: " ++ joinSepS ", " (jmetaGetTags d.metadata)])

/-- The per-document block appended at `rag.py` line 168. -/
def docBlock (d : Document) : String :=
  "[" ++ joinSepS " | " (docHeaderParts d) ++ "]\nSource: "
    ++ jmetaGetS d.metadata "source".data "unknown" ++ "\n\n" ++ pyStripS d.page_content

/-- Embedding of `format_context` (`rag.py` lines 144-170).  Note the
final line parses as `("\n\n" + "="*80) + "\n\n".join(context_parts)`:
the ruler is a one-time prefix and the join separator is the blank
line. -/
def formatContext (documents : List Document) : String :=
  if documents.isEmpty then ""
  else
    let context_parts := documents.foldl (fun parts doc => parts ++ [docBlock doc]) []
    "\n\n" ++ ruler80 ++ joinSepS "\n\n" context_parts

/-- The tail of the rendered context, emitting the fixed separator
before every block after the first (the claim C4 joining discipline
written as a direct recursion). -/
def blocksTail : List Document → String
  | [] => ""
  | e :: rest => "\n\n" ++ docBlock e ++ blocksTail rest

/-! ## The vector store and retrieval paths (`rag.py` lines 116-202)

The store is opaque: it carries the documents it was built from and a
`similarity_search` function that may raise (embedding failures),
modelled with `Except`.  `RagState` carries the mutable `vector_store`
attribute together with the injected dependencies: the file system, the
splitter, the store constructor and the embedding call performed by
`add_documents` (whose invocations are counted). -/

structure VectorStore where
  docs : List Document
  search : String → Nat → Except String (List Document)

structure RagState where
  fs : FS
  split : List Document → List Document
  mkStore : List Document → VectorStore
  embed : List Document → Except String Unit
  vector_store : Option VectorStore
  embedCalls : Nat

/-- Embedding of `get_relevant_context` (`rag.py` lines 137-142): the
whole body is inside `try`, so both the `AttributeError` raised by
`None.similarity_search` and a failing search return `[]`.  The source
default is `k=4`. -/
def getRelevantContext (vs : Option VectorStore) (query : String) (k : Nat) :
    List Document :=
  match vs with
  | none => []
  | some v =>
    match v.search query k with
    | Except.ok docs => docs
    | Except.error _ => []

/-- Embedding of `create_vector_store` (`rag.py` lines 116-135): return
the existing store if one is set; otherwise build.  The empty store is
assigned to `self.vector_store` (line 130) before `add_documents` runs,
so an embedding failure leaves an empty store in place; a successful
`add_documents` embeds the splits (one counted embedding call). -/
def createVectorStore (st : RagState) : Except String VectorStore × RagState :=
  match st.vector_store with
  | some vs => (Except.ok vs, st)
  | none =>
    let documents := loadDocuments st.fs
    if documents.isEmpty then
      (Except.ok (st.mkStore []), { st with vector_store := some (st.mkStore []) })
    else
      let splits := st.split documents
      if splits.isEmpty then
        (Except.ok (st.mkStore []), { st with vector_store := some (st.mkStore []) })
      else
        match st.embed splits with
        | Except.ok _ =>
          (Except.ok (st.mkStore splits),
           { st with vector_store := some (st.mkStore splits),
                     embedCalls := st.embedCalls + 1 })
        | Except.error e =>
          (Except.error e, { st with vector_store := some (st.mkStore []) })

/-- Embedding of `is_available` (`rag.py` lines 172-180): build on
demand inside `try`; an exception yields `False` but keeps whatever
state mutation already happened; otherwise report whether the store is
set. -/
def isAvailable (st : RagState) : Bool × RagState :=
  match st.vector_store with
  | some _ => (true, st)
  | none =>
    match createVectorStore st with
    | (Except.ok _, st2) => (st2.vector_store.isSome, st2)
    | (Except.error _, st2) => (false, st2)

/-- Embedding of `get_context_for_template` (`rag.py` lines 182-190):
unlike `get_relevant_context`, the `similarity_search` call here (made
with the library default `k=4`) is not wrapped in `try`, so its
exceptions propagate. -/
def getContextForTemplate (st : RagState) (query : String) :
    Except String (String × RagState) :=
  match isAvailable st with
  | (false, st2) => Except.ok ("", st2)
  | (true, st2) =>
    match st2.vector_store with
    | none => Except.error "AttributeError"
    | some vs =>
      match vs.search query 4 with
      | Except.error e => Except.error e
      | Except.ok docs =>
        Except.ok (if docs.isEmpty then "" else formatContext docs, st2)

/-- CLAIM C9.  Building while the index is already built is a no-op:
`create_vector_store` returns the existing store and leaves the state
unchanged, so nothing is re-embedded (`embedCalls` is untouched) and the
store is not replaced.  The code has no rebuild entry point, so the
exception for an explicitly requested rebuild never applies. -/
theorem C9_create_vector_store_idempotent (st : RagState) (vs : VectorStore)
    (h : st.vector_store = some vs) :
    createVectorStore st = (Except.ok vs, st) := by
  simp [createVectorStore, h]

def docWitness : Document := ⟨"nmap docs", defaultMetadata "nmap_help.txt".data⟩

def okSearch : String → Nat → Except String (List Document) :=
  fun _ _ => Except.ok []

def builtState : RagState :=
  ⟨fsWitnessB, fun d => d, fun ds => ⟨ds, okSearch⟩, fun _ => Except.ok (),
   some ⟨[docWitness], okSearch⟩, 3⟩

/-- Witness for claim C9 at a concrete already-built state. -/
theorem C9_create_vector_store_idempotent_witness :
    createVectorStore builtState = (Except.ok ⟨[docWitness], okSearch⟩, builtState) :=
  C9_create_vector_store_idempotent builtState ⟨[docWitness], okSearch⟩ rfl

def failingSearch : String → Nat → Except String (List Document) :=
  fun _ _ => Except.error "embedding model unavailable"

def failingStore : VectorStore := ⟨[], failingSearch⟩

def failingState : RagState :=
  ⟨fsWitnessB, fun d => d, fun ds => ⟨ds, failingSearch⟩, fun _ => Except.ok (),
   some failingStore, 0⟩

/-- CLAIM C5 (counterexample).  With a built store whose
`similarity_search` raises, `get_context_for_template` propagates the
exception instead of returning an empty result: the claim fails on this
code path because the call at `rag.py` line 187 is not wrapped in
`try`. -/
theorem C5_context_template_raises_counterexample :
    getContextForTemplate failingState "scan the network" =
      Except.error "embedding model unavailable" := rfl

/-- CLAIM C5 (amended).  `get_relevant_context` is best-effort: it
returns `[]` (and never raises) when the store is unbuilt (`None`) or
when the search call fails, and returns the search hits otherwise.  The
claim as stated is false for `get_context_for_template`, whose unguarded
search call propagates exceptions. -/
theorem C5_get_relevant_context_best_effort (v : VectorStore) (q : String) (k : Nat) :
    getRelevantContext none q k = [] ∧
    (∀ e, v.search q k = Except.error e → getRelevantContext (some v) q k = []) ∧
    (∀ docs, v.search q k = Except.ok docs → getRelevantContext (some v) q k = docs) := by
  refine ⟨rfl, ?_, ?_⟩ <;> intro x hx <;> simp [getRelevantContext, hx]

/-- Witness for claim C5 at the unbuilt store and a failing search. -/
theorem C5_get_relevant_context_best_effort_witness :
    getRelevantContext none "scan the network" 4 = [] ∧
    getRelevantContext (some failingStore) "scan the network" 4 = [] :=
  ⟨(C5_get_relevant_context_best_effort failingStore "scan the network" 4).1,
   (C5_get_relevant_context_best_effort failingStore "scan the network" 4).2.1
     "embedding model unavailable" rfl⟩

theorem str_append_empty (s : String) : s ++ "" = s := by
  cases s with
  | mk l => show String.mk (l ++ []) = String.mk l
            rw [List.append_nil]

theorem str_append_assoc (a b c : String) : a ++ b ++ c = a ++ (b ++ c) := by
  cases a with
  | mk la =>
    cases b with
    | mk lb =>
      cases c with
      | mk lc => show String.mk (la ++ lb ++ lc) = String.mk (la ++ (lb ++ lc))
                 rw [List.append_assoc]

theorem str_append_ne_of_two {a1 a2 b1 b2 : Char} {p q : List Char} {P Q : String}
    (hne : ¬ (a1 = b1 ∧ a2 = b2))
    (hP : P.data = a1 :: a2 :: p) (hQ : Q.data = b1 :: b2 :: q) {a b : String}
    (h : P ++ a = Q ++ b) : False := by
  have h2 := congrArg String.data h
  rw [str_data_append, str_data_append, hP, hQ] at h2
  rw [List.cons_append, List.cons_append, List.cons_append, List.cons_append] at h2
  injection h2 with hc1 h3
  injection h3 with hc2 h4
  exact hne ⟨hc1, hc2⟩

theorem formatParts_eq_map (docs : List Document) (acc : List String) :
    docs.foldl (fun parts doc => parts ++ [docBlock doc]) acc
      = acc ++ docs.map docBlock := by
  induction docs generalizing acc with
  | nil => simp
  | cons d rest ih =>
    rw [List.foldl_cons, List.map_cons, ih]
    simp

theorem joinSepS_blocksTail (x : Document) (l : List Document) :
    joinSepS "\n\n" (List.map docBlock (x :: l)) = docBlock x ++ blocksTail l := by
  induction l generalizing x with
  | nil => exact (str_append_empty (docBlock x)).symm
  | cons y rest ih =>
    show docBlock x ++ "\n\n" ++ joinSepS "\n\n" (List.map docBlock (y :: rest))
      = docBlock x ++ ("\n\n" ++ docBlock y ++ blocksTail rest)
    rw [ih y, str_append_assoc]
    rw [str_append_assoc, ← str_append_assoc ("\n\n" : String)]

theorem docHeaderParts_mem (d : Document) (p : String) (hp : p ∈ docHeaderParts d) :
    p = "Tool: " ++ jmetaGetS d.metadata "tool".data "unknown" ∨
    (¬ jmetaGetS d.metadata "category".data "" = "" ∧
      p = "Category: " ++ jmetaGetS d.metadata "category".data "") ∨
    (¬ jmetaGetS d.metadata "description".data "" = "" ∧
      p = "Description: " ++ jmetaGetS d.metadata "description".data "") ∨
    (¬ jmetaGetTags d.metadata = [] ∧
      p = "Tags: " ++ joinSepS ", " (jmetaGetTags d.metadata)) := by
  unfold docHeaderParts at hp
  rcases List.mem_append.mp hp with h | h
  · rcases List.mem_append.mp h with h2 | h2
    · rcases List.mem_append.mp h2 with h3 | h3
      · left
        simpa using h3
      · right; left
        by_cases hc : jmetaGetS d.metadata "category".data "" = ""
        · rw [if_pos hc] at h3
          simp at h3
        · rw [if_neg hc] at h3
          exact ⟨hc, by simpa using h3⟩
    · right; right; left
      by_cases hc : jmetaGetS d.metadata "description".data "" = ""
      · rw [if_pos hc] at h2
        simp at h2
      · rw [if_neg hc] at h2
        exact ⟨hc, by simpa using h2⟩
  · right; right; right
    by_cases hc : jmetaGetTags d.metadata = []
    · rw [if_pos hc] at h
      simp at h
    · rw [if_neg hc] at h
      exact ⟨hc, by simpa using h⟩

/-- CLAIM C4.  `format_context` returns the empty string on the empty
list; on a non-empty list it renders a one-time ruler prefix followed by
the chunk blocks with the fixed blank-line separator between every pair
of consecutive blocks; each block is a bracketed header line, the source
line, and the stripped chunk text; and the header contains a `Category`,
`Description` or `Tags` part exactly when that metadata field is
non-empty. -/
theorem C4_format_context_rendering (d : Document) (ds : List Document) :
    formatContext [] = "" ∧
    formatContext (d :: ds) = "\n\n" ++ ruler80 ++ docBlock d ++ blocksTail ds ∧
    docBlock d = "[" ++ joinSepS " | " (docHeaderParts d) ++ "]\nSource: "
      ++ jmetaGetS d.metadata "source".data "unknown" ++ "\n\n" ++ pyStripS d.page_content ∧
    ((∃ p ∈ docHeaderParts d, ∃ t, p = "Category: " ++ t)
        ↔ ¬ jmetaGetS d.metadata "category".data "" = "") ∧
    ((∃ p ∈ docHeaderParts d, ∃ t, p = "Description: " ++ t)
        ↔ ¬ jmetaGetS d.metadata "description".data "" = "") ∧
    ((∃ p ∈ docHeaderParts d, ∃ t, p = "Tags: " ++ t)
        ↔ ¬ jmetaGetTags d.metadata = []) := by
  refine ⟨rfl, ?_, rfl, ?_, ?_, ?_⟩
  · have h1 : formatContext (d :: ds) = "\n\n" ++ ruler80
        ++ joinSepS "\n\n" ((d :: ds).foldl (fun parts doc => parts ++ [docBlock doc]) []) :=
      rfl
    rw [h1, formatParts_eq_map (d :: ds) [], List.nil_append,
        joinSepS_blocksTail d ds, ← str_append_assoc]
  · constructor
    · rintro ⟨part, hmem, t, hpart⟩
      intro hcat
      rcases docHeaderParts_mem d part hmem with h | ⟨hc, h⟩ | ⟨hc, h⟩ | ⟨hc, h⟩
      · exact str_append_ne_of_two (by decide) rfl rfl (hpart.symm.trans h)
      · exact hc hcat
      · exact str_append_ne_of_two (by decide) rfl rfl (hpart.symm.trans h)
      · exact str_append_ne_of_two (by decide) rfl rfl (hpart.symm.trans h)
    · intro hcat
      exact ⟨"Category: " ++ jmetaGetS d.metadata "category".data "",
        by simp [docHeaderParts, hcat], jmetaGetS d.metadata "category".data "", rfl⟩
  · constructor
    · rintro ⟨part, hmem, t, hpart⟩
      intro hdesc
      rcases docHeaderParts_mem d part hmem with h | ⟨hc, h⟩ | ⟨hc, h⟩ | ⟨hc, h⟩
      · exact str_append_ne_of_two (by decide) rfl rfl (hpart.symm.trans h)
      · exact str_append_ne_of_two (by decide) rfl rfl (hpart.symm.trans h)
      · exact hc hdesc
      · exact str_append_ne_of_two (by decide) rfl rfl (hpart.symm.trans h)
    · intro hdesc
      exact ⟨"Description: " ++ jmetaGetS d.metadata "description".data "",
        by simp [docHeaderParts, hdesc], jmetaGetS d.metadata "description".data "", rfl⟩
  · constructor
    · rintro ⟨part, hmem, t, hpart⟩
      intro htags
      rcases docHeaderParts_mem d part hmem with h | ⟨hc, h⟩ | ⟨hc, h⟩ | ⟨hc, h⟩
      · exact str_append_ne_of_two (by decide) rfl rfl (hpart.symm.trans h)
      · exact str_append_ne_of_two (by decide) rfl rfl (hpart.symm.trans h)
      · exact str_append_ne_of_two (by decide) rfl rfl (hpart.symm.trans h)
      · exact hc htags
    · intro htags
      exact ⟨"Tags: " ++ joinSepS ", " (jmetaGetTags d.metadata),
        by simp [docHeaderParts, htags], joinSepS ", " (jmetaGetTags d.metadata), rfl⟩

/-- CLAIM C7 (counterexample).  A fenced block whose language tag is
`python` around valid JSON refutes the general claim: only the trailing
fence is stripped (the opening stripper at `helpers.py` line 50 matches
the `json` tag alone), the parse check fails, and the step-1 replacement
at line 64 rewrites the opening fence into text beginning with a literal
backslash-n, so the normalized output no longer parses at all, while the
inner text parses fine. -/
theorem C7_python_fence_counterexample :
    isValidJsonL (pyStrip "\x7b\"a\": 1\x7d".data) = true ∧
    cleanJsonResponse "```python\n\x7b\"a\": 1\x7d\n```" = "\\npython\n\x7b\"a\": 1\x7d" ∧
    isValidJsonL (cleanJsonResponse "```python\n\x7b\"a\": 1\x7d\n```").data = false :=
  ⟨by decide, by decide, by decide⟩
